import Mathlib

/-!
Message resolution of cli-test-center (`internal/message_utils.go`).

A shallow embedding of the message utilities: the key builder
`getJsonPathForCommand`, the resolver `getMessageForJsonPathOrFallback`, the
placeholder interpolation `getReplacedPlaceholderMessage` and the API error
classifier `GetApiErrorMessagesForCommand`, followed by the properties proved
of them.

Conventions of the embedding.

* A Go string is the list of its Unicode code points (`Str`), so the strings
  are the valid UTF-8 ones; `len(s)` is the number of bytes of the encoding
  (`byteLen`).
* A run-time panic (an index out of range, the read of an unexported field by
  reflection) is the value `none`.
* The functions of the Go standard library, of `gjson` and of `reflections` are
  written out for the forms the source calls them in; the Unicode tables above
  ASCII are a parameter.
* The embedded catalog `en_US.json` is read only through `gjson.Get`; it is the
  parameter `messageJson`, the function from a path to the `gjson.Result`.
* The calls of the logger are left out.
-/

namespace MessageUtils

/-- A Go string, as the list of its code points. -/
abbrev Str := List Char

/-! ## The Go standard library, as far as the source uses it -/

/-- Go `len(s)` for a string: the number of bytes of the UTF-8 encoding. -/
def byteLen (s : Str) : Nat := (s.map Char.utf8Size).sum

/-- Go `unicode.IsSpace`: the white space code points of Unicode. -/
def isSpace (r : Char) : Bool :=
  r.toNat = 0x09 || r.toNat = 0x0A || r.toNat = 0x0B || r.toNat = 0x0C || r.toNat = 0x0D
    || r.toNat = 0x20 || r.toNat = 0x85 || r.toNat = 0xA0 || r.toNat = 0x1680
    || (0x2000 ≤ r.toNat && r.toNat ≤ 0x200A)
    || r.toNat = 0x2028 || r.toNat = 0x2029 || r.toNat = 0x202F || r.toNat = 0x205F
    || r.toNat = 0x3000

/-- The tables of Go's `unicode` package for the code points above ASCII (the
source only reaches them through `strings.Title` and `strings.ToLower`). They
are not part of the repository and are taken as a parameter; the two facts
recorded with them hold of the Unicode case tables: a title-case mapping never
yields white space or a hyphen, and it leaves white space as it is. -/
structure UnicodeTables where
  /-- `unicode.IsLetter` above ASCII -/
  isLetter : Char → Bool
  /-- `unicode.IsDigit` above ASCII -/
  isDigit : Char → Bool
  /-- `unicode.To(unicode.TitleCase, r)` above ASCII -/
  toTitle : Char → Char
  /-- `unicode.To(unicode.LowerCase, r)` above ASCII -/
  toLower : Char → Char
  title_not_space : ∀ c : Char, 0x7F < c.toNat → isSpace c = false → isSpace (toTitle c) = false
  title_not_hyphen : ∀ c : Char, 0x7F < c.toNat → toTitle c ≠ '-'
  title_of_space : ∀ c : Char, 0x7F < c.toNat → isSpace c = true → toTitle c = c

/-- The tables that leave every code point above ASCII unchanged and class none
of them as a letter or digit; used for concrete ASCII inputs, where the tables
are never consulted. -/
def asciiTables : UnicodeTables where
  isLetter := fun _ => false
  isDigit := fun _ => false
  toTitle := fun c => c
  toLower := fun c => c
  title_not_space := fun _ _ h => h
  title_not_hyphen := fun c h hc => by
    subst hc
    exact absurd h (by decide)
  title_of_space := fun _ _ _ => rfl

/-- Go `unicode.ToTitle`: ASCII lower-case letters are moved to upper case,
other ASCII is unchanged, the rest goes through the title-case table. -/
def ToTitle (U : UnicodeTables) (r : Char) : Char :=
  if r.toNat ≤ 0x7F then
    if 97 ≤ r.toNat ∧ r.toNat ≤ 122 then Char.ofNat (r.toNat - 32) else r
  else U.toTitle r

/-- Go `unicode.ToLower`. -/
def ToLowerRune (U : UnicodeTables) (r : Char) : Char :=
  if r.toNat ≤ 0x7F then
    if 65 ≤ r.toNat ∧ r.toNat ≤ 90 then Char.ofNat (r.toNat + 32) else r
  else U.toLower r

/-- Go `strings.ToLower`. -/
def ToLower (U : UnicodeTables) (s : Str) : Str := s.map (ToLowerRune U)

/-- Go `strings.isSeparator`: ASCII letters, digits and the underscore are not
separators, other ASCII is; above ASCII letters and digits are not separators
and otherwise only white space is. -/
def isSeparator (U : UnicodeTables) (r : Char) : Bool :=
  if r.toNat ≤ 0x7F then
    if 48 ≤ r.toNat ∧ r.toNat ≤ 57 then false
    else if 97 ≤ r.toNat ∧ r.toNat ≤ 122 then false
    else if 65 ≤ r.toNat ∧ r.toNat ≤ 90 then false
    else if r.toNat = 95 then false
    else true
  else if U.isLetter r || U.isDigit r then false
  else isSpace r

/-- The closure of `strings.Title`, with `prev` the rune seen before. -/
def titleFrom (U : UnicodeTables) : Char → Str → Str
  | _, [] => []
  | prev, r :: rs => (if isSeparator U prev then ToTitle U r else r) :: titleFrom U r rs

/-- Go `strings.Title`: every letter that begins a word is mapped to title
case; `prev` starts as a blank. -/
def Title (U : UnicodeTables) (s : Str) : Str := titleFrom U ' ' s

/-- Splits a string at every code point for which `p` holds; the pieces are the
(possibly empty) stretches between them. -/
def splitBy (p : Char → Bool) : Str → List Str
  | [] => [[]]
  | c :: cs =>
    if p c then [] :: splitBy p cs
    else match splitBy p cs with
      | [] => [[c]]
      | w :: ws => (c :: w) :: ws

/-- Go `strings.Split(s, sep)` for a separator of one code point, the only form
in the source (`"-"`, `"."`, `" "`). -/
def Split (s : Str) (sep : Char) : List Str := splitBy (fun c => c = sep) s

/-- Go `strings.Fields`: the maximal stretches free of white space. -/
def Fields (s : Str) : List Str := (splitBy isSpace s).filter (fun w => !w.isEmpty)

/-- Go `strings.Join`. -/
def Join (elems : List Str) (sep : Str) : Str := sep.intercalate elems

/-- Go `strings.Contains`. -/
def Contains : Str → Str → Bool
  | [], substr => substr.isEmpty
  | c :: cs, substr => substr.isPrefixOf (c :: cs) || Contains cs substr

/-- Go `strings.ReplaceAll` after a match has been found: `skip` counts the
code points of the match still to be dropped. -/
def replaceFrom (old new : Str) : Nat → Str → Str
  | _, [] => []
  | skip + 1, _ :: cs => replaceFrom old new skip cs
  | 0, c :: cs =>
    if old.isPrefixOf (c :: cs) then new ++ replaceFrom old new (old.length - 1) cs
    else c :: replaceFrom old new 0 cs

/-- Go `strings.ReplaceAll`: the non-overlapping occurrences of `old`, found
from the left, are replaced by `new`; an empty `old` matches before every code
point and at the end. -/
def ReplaceAll (s old new : Str) : Str :=
  if old.isEmpty then new ++ (s.map (fun c => c :: new)).flatten
  else replaceFrom old new 0 s

/-- A Go slice store `dst[i] = v`: `none` (index out of range) unless `i` is
below the length. -/
def store {α : Type} (dst : List α) (i : Nat) (v : α) : Option (List α) :=
  if i < dst.length then some (dst.set i v) else none

/-- The loop `for i, x := range xs { dst[i] = f i x }` from index `i` on. The
body `f` may itself panic. -/
def rangeStore {α β : Type} (f : Nat → α → Option β) : Nat → List α → List β → Option (List β)
  | _, [], dst => some dst
  | i, x :: xs, dst =>
    match f i x with
    | none => none
    | some v =>
      match store dst i v with
      | none => none
      | some dst1 => rangeStore f (i + 1) xs dst1

/-- The values `f i x` of a range loop over `xs` whose indices start at `i`. -/
def mapFrom {α β : Type} (f : Nat → α → β) : Nat → List α → List β
  | _, [] => []
  | i, x :: xs => f i x :: mapFrom f (i + 1) xs

/-- The values of a range loop whose body may panic: `none` when one does. -/
def collectFrom {α β : Type} (f : Nat → α → Option β) : Nat → List α → Option (List β)
  | _, [] => some []
  | i, x :: xs =>
    match f i x with
    | none => none
    | some v =>
      match collectFrom f (i + 1) xs with
      | none => none
      | some vs => some (v :: vs)

/-! ## Package variables -/

def rootCommandName : Str := "akamai".toList
def jsonPathSeparator : Str := ".".toList
def flagKey : Str := "flag".toList
def subCommandKey : Str := "subCommand".toList
def edgeGridError : Str := "edgeGridError".toList
def fallbackKey : Str := "fallback".toList
def messagesKey : Str := "messages".toList

/-! ## Key builder -/

/-- The body of the outer loop of `getJsonPathForCommand` for one word `str`:
`dashRemovedString` is made with `len(str)` slots, the hyphen parts are stored
by index (the first as it is, the others through `strings.Title`), and the
slots are joined without separator. -/
def dashRemoved (U : UnicodeTables) (str : Str) : Option Str :=
  match rangeStore (fun i2 dashedString => some (if i2 = 0 then dashedString else Title U dashedString))
      0 (Split str '-') (List.replicate (byteLen str) []) with
  | none => none
  | some dashRemovedString => some (Join dashRemovedString [])

/-- `getJsonPathForCommand`: the json path of a command chain. -/
def getJsonPathForCommand (U : UnicodeTables) (cmdString : Str) : Option Str :=
  let givenString := Fields cmdString
  match rangeStore (fun _ str => dashRemoved U str) 0 givenString
      (List.replicate givenString.length []) with
  | none => none
  | some jsonPath =>
    let convertedString := Join jsonPath jsonPathSeparator
    if Contains convertedString rootCommandName then some convertedString
    else some (Join [rootCommandName, convertedString] jsonPathSeparator)

/-- `getErrorJsonKeyForErrorType`: the parts of the error type between dots, the
first as it is and the others through `strings.Title`, joined without
separator. `jsonPath` is made with `len(str)` slots for the `len(str)` parts, so
every store is in range (see `rangeStore_eq`). -/
def getErrorJsonKeyForErrorType (U : UnicodeTables) (errorType : Str) : Str :=
  let str := Split errorType '.'
  Join (mapFrom (fun i2 s => if i2 = 0 then s else Title U s) 0 str) []

/-- `getErrorJsonKeyForDetail`: the parts of the detail text between blanks, the
first in lower case and the others through `strings.Title`, joined without
separator. -/
def getErrorJsonKeyForDetail (U : UnicodeTables) (errorType : Str) : Str :=
  let str := Split errorType ' '
  Join (mapFrom (fun i2 s => if i2 = 0 then ToLower U s else Title U s) 0 str) []

/-! ## The catalog and the resolver -/

/-- The `gjson.Type` of a result. -/
inductive GType
  | Null | False | Number | String | True | JSON
  deriving DecidableEq, Repr

/-- A `gjson.Result`. The float `Num` is kept as `NumText`, the text that
`strconv.FormatFloat(Num, 'f', -1, 64)` gives for it. -/
structure Result where
  /-- the field `Type` of the source -/
  Typ : GType
  Raw : List Char
  Str : List Char
  NumText : List Char
  deriving DecidableEq, Repr

/-- `gjson.Result.Exists`. -/
def Result.Exists (t : Result) : Bool := t.Typ ≠ GType.Null || t.Raw.length ≠ 0

/-- The test of `gjson.Result.String` on the raw text of a number: an optional
leading minus sign followed by decimal digits only. -/
def rawIsInteger (raw : Str) : Bool :=
  match raw with
  | [] => true
  | c :: cs => (if c = '-' then cs else c :: cs).all (fun d => 48 ≤ d.toNat && d.toNat ≤ 57)

/-- `gjson.Result.String`. -/
def Result.String (t : Result) : List Char :=
  match t.Typ with
  | GType.Null => []
  | GType.False => "false".toList
  | GType.Number => if t.Raw.length = 0 then t.NumText else if rawIsInteger t.Raw then t.Raw else t.NumText
  | GType.String => t.Str
  | GType.JSON => t.Raw
  | GType.True => "true".toList

/-- Modelled from the spec: the constant `Empty` is declared outside the
sources; the spec reads the tests against it as tests for a non-empty text. -/
def Empty : Str := []

/-- What the source takes from outside the file: the Unicode tables, the
constants declared elsewhere in the package, the embedded catalog as the
function `gjson.Get(messageJson.String(), path)`, and the collaborator
`GetHttpExitCode`. -/
structure Env where
  tables : UnicodeTables
  Global : Str
  Missing : Str
  Invalid : Str
  MessageTypeSpinner : Str
  MessageTypeDisplay : Str
  MessageTypeTestCmdSpinner : Str
  messageJson : Str → Result
  GetHttpExitCode : Str → Int

/-- `checkIfMessageExist`. -/
def checkIfMessageExist (E : Env) (jsonPath : Str) : Bool :=
  (E.messageJson jsonPath).Exists

/-- `getMessageForJsonPathOrFallback`. -/
def getMessageForJsonPathOrFallback (E : Env) (jsonPath : Str) : Str :=
  let message := E.messageJson jsonPath
  if message.Exists && message.Typ = GType.String then message.String
  else (E.messageJson (rootCommandName ++ jsonPathSeparator ++ fallbackKey)).String

/-- `GetGlobalErrorMessage`. -/
def GetGlobalErrorMessage (E : Env) (key : Str) : Str :=
  getMessageForJsonPathOrFallback E (Join [rootCommandName, E.Global, key] jsonPathSeparator)

/-- `GetEdgeGridErrorMessage`. -/
def GetEdgeGridErrorMessage (E : Env) (key : Str) : Str :=
  getMessageForJsonPathOrFallback E
    (Join [rootCommandName, E.Global, edgeGridError, key] jsonPathSeparator)

/-! ## Placeholder interpolation -/

/-- A value read from a struct field by reflection, as far as `%v` tells values
apart: a string, an integer, or any other value given by its `%v` text. -/
inductive Value
  | string (s : Str)
  | int (i : Int)
  | other (text : Str)
  deriving DecidableEq, Repr

/-- A field of a Go struct as reflection sees it. -/
structure Field where
  name : Str
  exported : Bool
  value : Value
  deriving DecidableEq, Repr

/-- The context object handed to the interpolation (a Go `interface{}`): the
fields of the struct; a value that is no struct has none. -/
abbrev Obj := List Field

/-- `reflections.GetField(obj, name)` with its error dropped, as the source
calls it: the outer `none` is the panic of `reflect.Value.Interface` on an
unexported field, `some none` the `nil` returned with the error for a name that
is no field, `some (some v)` the value of the field. -/
def GetField (obj : Obj) (name : Str) : Option (Option Value) :=
  match obj.find? (fun f => f.name = name) with
  | none => some none
  | some f => if f.exported then some (some f.value) else none

/-- `fmt.Sprintf("%v", value)`. -/
def Sprint : Option Value → Str
  | none => "<nil>".toList
  | some (Value.string s) => s
  | some (Value.int i) => (toString i).toList
  | some (Value.other text) => text

/-- Splits `s` around the first occurrence of `pat`. -/
def cutAt (pat : Str) : Str → Option (Str × Str)
  | [] => if pat.isEmpty then some ([], []) else none
  | c :: cs =>
    if pat.isPrefixOf (c :: cs) then some ([], (c :: cs).drop pat.length)
    else match cutAt pat cs with
      | none => none
      | some (a, b) => some (c :: a, b)

def placeHolderRegex : Str := "\x7b\x7b(.*?)\x7d\x7d".toList

/-- The scan behind `GetPlaceHoldersInString`, for at most `fuel` matches. -/
def scanPlaceHolders : Nat → Str → List Str
  | 0, _ => []
  | fuel + 1, s =>
    match cutAt ['{', '{'] s with
    | none => []
    | some (_, r1) =>
      match cutAt ['}', '}'] r1 with
      | none => []
      | some (name, r2) => name :: scanPlaceHolders fuel r2

/-- Modelled from the spec: `GetPlaceHoldersInString` is declared outside the
sources. The spec has it scan the template for all occurrences of the pattern
`placeHolderRegex`, two opening braces, a name, two closing braces, the name
being the shortest one (non-greedy) and made of arbitrary characters; the
result lists the names of the matches from left to right. A match takes at
least four code points, so the length of the text bounds the number of
matches. -/
def GetPlaceHoldersInString (str : Str) (_regex : Str) : List Str :=
  scanPlaceHolders str.length str

/-- The text `fmt.Sprintf` builds for the placeholder of a name: the name in
double braces. -/
def placeHolder (str : Str) : Str := ['{', '{'] ++ str ++ ['}', '}']

/-- The loop of `getReplacedPlaceholderMessage` over the placeholder names. -/
def replacePlaceHolders (U : UnicodeTables) (error : Obj) : List Str → Str → Option Str
  | [], errorMessage => some errorMessage
  | str :: rest, errorMessage =>
    match GetField error (Title U str) with
    | none => none
    | some value =>
      replacePlaceHolders U error rest (ReplaceAll errorMessage (placeHolder str) (Sprint value))

/-- `getReplacedPlaceholderMessage`. -/
def getReplacedPlaceholderMessage (U : UnicodeTables) (error : Obj) (errorMessage : Str) :
    Option Str :=
  replacePlaceHolders U error (GetPlaceHoldersInString errorMessage placeHolderRegex) errorMessage

/-! ## API errors -/

/-- Modelled from the spec: the declaration of `ApiSubError` is outside the
sources. The fields are the ones the code reads: the type (`Type` in the
source), the free-form request field name and the three numeric ids. -/
structure ApiSubError where
  Typ : Str
  RequestField : Str
  RequirementId : Int
  ConfigVersionId : Int
  TestSuiteId : Int
  deriving DecidableEq, Repr

/-- Modelled from the spec: the declaration of `ApiError` is outside the
sources. The fields are the ones the code reads: the type (`Type` in the
source), the status, detail, code, client and server IP, request id and the
list of sub-errors. -/
structure ApiError where
  Typ : Str
  Status : Int
  Detail : Str
  Code : Str
  ClientIp : Str
  ServerIp : Str
  RequestId : Str
  Errors : List ApiSubError
  deriving DecidableEq, Repr

/-- The sub-error as the context object of the interpolation: its fields, all
exported. -/
def ApiSubError.toObj (e : ApiSubError) : Obj :=
  [⟨"Type".toList, true, Value.string e.Typ⟩,
   ⟨"RequestField".toList, true, Value.string e.RequestField⟩,
   ⟨"RequirementId".toList, true, Value.int e.RequirementId⟩,
   ⟨"ConfigVersionId".toList, true, Value.int e.ConfigVersionId⟩,
   ⟨"TestSuiteId".toList, true, Value.int e.TestSuiteId⟩]

/-- The `%v` text of a struct: the `%v` texts of its fields between braces. -/
def sprintStruct (o : Obj) : Str :=
  ['{'] ++ Join (o.map (fun f => Sprint (some f.value))) [' '] ++ ['}']

/-- The API error as the context object of the interpolation. -/
def ApiError.toObj (e : ApiError) : Obj :=
  [⟨"Type".toList, true, Value.string e.Typ⟩,
   ⟨"Status".toList, true, Value.int e.Status⟩,
   ⟨"Detail".toList, true, Value.string e.Detail⟩,
   ⟨"Code".toList, true, Value.string e.Code⟩,
   ⟨"ClientIp".toList, true, Value.string e.ClientIp⟩,
   ⟨"ServerIp".toList, true, Value.string e.ServerIp⟩,
   ⟨"RequestId".toList, true, Value.string e.RequestId⟩,
   ⟨"Errors".toList, true,
     Value.other (['['] ++ Join (e.Errors.map (fun x => sprintStruct x.toObj)) [' '] ++ [']'])⟩]

/-- A `*cobra.Command`, of which the source only reads `CommandPath()`. -/
structure Command where
  CommandPath : Str
  deriving DecidableEq, Repr

/-- The message of one sub-error: the body of the loop of
`GetApiSubErrorMessagesForCommand`. -/
def subErrorMessage (E : Env) (jsonPathForCommand parentErrorKey subResource operation : Str)
    (subError : ApiSubError) : Option Str :=
  let subErrorKey := getErrorJsonKeyForErrorType E.tables subError.Typ
  match getJsonPathForCommand E.tables
      (Join [jsonPathForCommand, subResource, operation, parentErrorKey, subErrorKey] [' ']) with
  | none => none
  | some errorPath =>
    if Contains "resourceNotFound,resourceInDeletedState".toList subErrorKey
        && checkIfMessageExist E
          (errorPath ++ jsonPathSeparator ++ subError.RequestField ++ Title E.tables subErrorKey) then
      getReplacedPlaceholderMessage E.tables subError.toObj
        (getMessageForJsonPathOrFallback E
          (errorPath ++ jsonPathSeparator ++ subError.RequestField ++ Title E.tables subErrorKey))
    else if Contains "associationNotFound".toList subErrorKey
        && (subError.RequirementId != 0
          && checkIfMessageExist E (errorPath ++ jsonPathSeparator ++ "requirementId".toList
            ++ "TestSuiteId".toList ++ Title E.tables subErrorKey)) then
      getReplacedPlaceholderMessage E.tables subError.toObj
        (getMessageForJsonPathOrFallback E (errorPath ++ jsonPathSeparator
          ++ "requirementId".toList ++ "TestSuiteId".toList ++ Title E.tables subErrorKey))
    else if Contains "associationNotFound".toList subErrorKey
        && (subError.ConfigVersionId != 0
          && checkIfMessageExist E (errorPath ++ jsonPathSeparator ++ "configVersionId".toList
            ++ "TestSuiteId".toList ++ Title E.tables subErrorKey)) then
      getReplacedPlaceholderMessage E.tables subError.toObj
        (getMessageForJsonPathOrFallback E (errorPath ++ jsonPathSeparator
          ++ "configVersionId".toList ++ "TestSuiteId".toList ++ Title E.tables subErrorKey))
    else if Contains "associationNotFound".toList subErrorKey
        && (subError.TestSuiteId != 0
          && checkIfMessageExist E (errorPath ++ jsonPathSeparator ++ "testSuiteId".toList
            ++ "TestCaseId".toList ++ Title E.tables subErrorKey)) then
      getReplacedPlaceholderMessage E.tables subError.toObj
        (getMessageForJsonPathOrFallback E (errorPath ++ jsonPathSeparator
          ++ "testSuiteId".toList ++ "TestCaseId".toList ++ Title E.tables subErrorKey))
    else
      getReplacedPlaceholderMessage E.tables subError.toObj
        (getMessageForJsonPathOrFallback E errorPath)

/-- `GetApiSubErrorMessagesForCommand`. -/
def GetApiSubErrorMessagesForCommand (E : Env) (cmd : Command) (apiSubError : List ApiSubError)
    (parentErrorKey subResource operation : Str) : Option (List Str) :=
  match getJsonPathForCommand E.tables cmd.CommandPath with
  | none => none
  | some jsonPathForCommand =>
    rangeStore
      (fun _ subError => subErrorMessage E jsonPathForCommand parentErrorKey subResource operation subError)
      0 apiSubError (List.replicate apiSubError.length [])

/-- How a call of `GetApiErrorMessagesForCommand` ends: it returns the messages
to the caller, or it leaves through `os.Exit` after the listed calls of
`PrintError`, or it dies in a run-time panic. -/
inductive Outcome
  | returned (messages : List Str)
  | exited (printed : List Str) (code : Int)
  | panicked
  deriving DecidableEq, Repr

/-- `GetApiErrorMessagesForCommand`. A call of the collaborator `PrintError`
adds its argument to the printed output. -/
def GetApiErrorMessagesForCommand (E : Env) (cmd : Command) (apiError : ApiError)
    (subResource operation responseCode : Str) : Outcome :=
  match getJsonPathForCommand E.tables cmd.CommandPath with
  | none => Outcome.panicked
  | some jsonPathForCommand =>
    if (apiError.ClientIp ≠ Empty ∧ apiError.ServerIp ≠ Empty ∧ apiError.RequestId ≠ Empty)
        ∨ (responseCode = "401".toList ∧ apiError.Code ≠ Empty) then
      let out1 :=
        if (apiError.Status = 400 ∨ apiError.Status = 401) ∧ apiError.Detail ≠ Empty then
          [GetEdgeGridErrorMessage E (getErrorJsonKeyForDetail E.tables apiError.Detail) ++ ['\n']]
        else []
      let out2 :=
        if apiError.Status = 404 then
          out1 ++ [GetEdgeGridErrorMessage E "resourceNotFound".toList ++ ['\n']]
        else out1
      let out3 :=
        if responseCode = "401".toList ∧ apiError.Code ≠ Empty then
          out2 ++ [GetEdgeGridErrorMessage E "notAuthorized".toList ++ ['\n']]
        else out2
      let out4 := out3 ++ [GetGlobalErrorMessage E "initEdgeRc".toList ++ ['\n']]
      let statusCode := E.GetHttpExitCode responseCode
      Outcome.exited out4 statusCode
    else
      let parentErrorKey := getErrorJsonKeyForErrorType E.tables apiError.Typ
      if apiError.Errors.length ≠ 0 then
        match GetApiSubErrorMessagesForCommand E cmd apiError.Errors parentErrorKey subResource
            operation with
        | none => Outcome.panicked
        | some errorMessages => Outcome.returned errorMessages
      else
        match getJsonPathForCommand E.tables
            (Join [jsonPathForCommand, subResource, operation, parentErrorKey] [' ']) with
        | none => Outcome.panicked
        | some errorPath =>
          let errorMessage := getMessageForJsonPathOrFallback E errorPath
          match getReplacedPlaceholderMessage E.tables apiError.toObj errorMessage with
          | none => Outcome.panicked
          | some message => Outcome.returned [message]

/-- `GetMessageForKey`. -/
def GetMessageForKey (E : Env) (baseCmdPath : Command) (key : Str) : Option Str :=
  match getJsonPathForCommand E.tables (Join [baseCmdPath.CommandPath, key] [' ']) with
  | none => none
  | some jsonPath => some (getMessageForJsonPathOrFallback E jsonPath)

/-- `GetErrorMessageForFlag`. -/
def GetErrorMessageForFlag (E : Env) (cmd : Command) (errorType flagKeyInJson : Str) :
    Option Str :=
  match getJsonPathForCommand E.tables cmd.CommandPath with
  | none => none
  | some jsonPath =>
    let jsonPath1 :=
      if errorType = E.Missing then
        Join [jsonPath, flagKey, E.Missing, flagKeyInJson] jsonPathSeparator
      else if errorType = E.Invalid then
        Join [jsonPath, flagKey, E.Invalid, flagKeyInJson] jsonPathSeparator
      else jsonPath
    some (getMessageForJsonPathOrFallback E jsonPath1)

/-- `GetErrorMessageForSubArgument`. -/
def GetErrorMessageForSubArgument (E : Env) (cmd : Command)
    (errorType subCommandKeyInJson : Str) : Option Str :=
  match getJsonPathForCommand E.tables cmd.CommandPath with
  | none => none
  | some jsonPath =>
    let jsonPath1 :=
      if errorType = E.Missing then
        Join [jsonPath, subCommandKey, E.Missing, subCommandKeyInJson] jsonPathSeparator
      else if errorType = E.Invalid then
        Join [jsonPath, subCommandKey, E.Invalid, subCommandKeyInJson] jsonPathSeparator
      else jsonPath
    some (getMessageForJsonPathOrFallback E jsonPath1)

/-- `GetServiceMessage`. -/
def GetServiceMessage (E : Env) (cmd : Command) (messageType subresource jsonKey : Str) :
    Option Str :=
  match getJsonPathForCommand E.tables cmd.CommandPath with
  | none => none
  | some jsonPath =>
    let jsonPath1 :=
      if messageType = E.MessageTypeSpinner then
        Join [jsonPath, messagesKey, E.MessageTypeSpinner, jsonKey] jsonPathSeparator
      else if messageType = E.MessageTypeDisplay then
        Join [jsonPath, messagesKey, E.MessageTypeDisplay, jsonKey] jsonPathSeparator
      else if messageType = E.MessageTypeTestCmdSpinner then
        Join [jsonPath, messagesKey, subresource, E.MessageTypeSpinner, jsonKey] jsonPathSeparator
      else jsonPath
    some (getMessageForJsonPathOrFallback E jsonPath1)

/-- A catalog given by the finite list of its paths. -/
def catalogOf (entries : List (Str × Result)) (path : Str) : Result :=
  match entries.find? (fun e => e.1 = path) with
  | some e => e.2
  | none => ⟨GType.Null, [], [], []⟩

/-- A string leaf of a catalog. -/
def leaf (text : String) : Result := ⟨GType.String, ['"'] ++ text.toList ++ ['"'], text.toList, []⟩

/-- A small environment for concrete runs. -/
def sampleEnv : Env where
  tables := asciiTables
  Global := "global".toList
  Missing := "missing".toList
  Invalid := "invalid".toList
  MessageTypeSpinner := "spinner".toList
  MessageTypeDisplay := "display".toList
  MessageTypeTestCmdSpinner := "testCmdSpinner".toList
  messageJson := catalogOf
    [("akamai.fallback".toList, leaf "Something went wrong"),
     ("akamai.global.initEdgeRc".toList, leaf "Initialize your edgerc"),
     ("akamai.global.edgeGridError.resourceNotFound".toList, leaf "Resource not found"),
     ("akamai.global.edgeGridError.notAuthorized".toList, leaf "Not authorized"),
     ("akamai.testCenter.testSuite.view.testSuite.get.notFound.resourceNotFound".toList,
        leaf "No \x7b\x7brequestField\x7d\x7d with id \x7b\x7btestSuiteId\x7d\x7d")]
  GetHttpExitCode := fun code => if code = "404".toList then 4 else 1

/-! ## Notions used in the statements -/

/-- A word made of hyphens only (the empty word included): the words on which
the slice of `dashRemoved` is too short. -/
def onlyHyphens (w : Str) : Bool := w.all (fun c => c = '-')

/-- The text has a word (a stretch between white space) made of hyphens only. -/
def hyphenWord (s : Str) : Bool := (Fields s).any onlyHyphens

/-- The camel case of a word: its first hyphen part as it is, followed by the
later hyphen parts, each through `strings.Title`. -/
def camel (U : UnicodeTables) (str : Str) : Str :=
  match Split str '-' with
  | [] => []
  | first :: later => first ++ (later.map (Title U)).flatten

/-- The text `getJsonPathForCommand` builds before it looks for the root
command name: the camel-cased words joined by the path separator. -/
def converted (U : UnicodeTables) (cmdString : Str) : Str :=
  Join ((Fields cmdString).map (camel U)) jsonPathSeparator

/-- Neither white space nor a hyphen. -/
def plain (c : Char) : Prop := isSpace c = false ∧ c ≠ '-'


/-- The capitalisation the spec names for a hyphen part: its first letter is
mapped to title case, the rest is left as it is. -/
def capitalize (U : UnicodeTables) : Str → Str
  | [] => []
  | c :: cs => ToTitle U c :: cs

/-- A segment in the reference definition of the key builder, in the spec's
words: the first hyphen part is kept as it is, every later hyphen part is
capitalised, and the parts are concatenated without separator. -/
def segmentSpec (U : UnicodeTables) (segment : Str) : Str :=
  match Split segment '-' with
  | [] => []
  | first :: later => first ++ (later.map (capitalize U)).flatten

/-- The candidate key of the reference definition: the segments of the command
path between white space, each through `segmentSpec`, joined by dots. -/
def candidateSpec (U : UnicodeTables) (commandPath : Str) : Str :=
  Join ((Fields commandPath).map (segmentSpec U)) jsonPathSeparator

/-- The reference definition of the key builder for a command path whose
candidate key does not hold the root namespace: the root namespace, a dot, and
the candidate key. -/
def buildCommandKeySpec (U : UnicodeTables) (commandPath : Str) : Str :=
  rootCommandName ++ jsonPathSeparator ++ candidateSpec U commandPath

/-- The number of places of `s` at which `substr` occurs. -/
def countOcc (substr : Str) : Str → Nat
  | [] => if substr.isEmpty then 1 else 0
  | c :: cs => (if substr.isPrefixOf (c :: cs) then 1 else 0) + countOcc substr cs

/-- The catalog's fallback string: the text at `akamai.fallback`. -/
def fallbackString (E : Env) : Str := (E.messageJson "akamai.fallback".toList).String

/-- The field names of a context object are Go identifiers, made of letters,
digits and underscores: none of their code points is a word separator. -/
def identifierNames (U : UnicodeTables) (obj : Obj) : Bool :=
  obj.all (fun f => f.name.all (fun c => !isSeparator U c))

/-- The gate of the edge path, in the words of the claims: client IP, server IP
and request id are all non-empty, or the response code is `401` and the error
code is non-empty. -/
def edgeGate (apiError : ApiError) (responseCode : Str) : Prop :=
  (apiError.ClientIp ≠ [] ∧ apiError.ServerIp ≠ [] ∧ apiError.RequestId ≠ [])
    ∨ (responseCode = "401".toList ∧ apiError.Code ≠ [])

instance (apiError : ApiError) (responseCode : Str) : Decidable (edgeGate apiError responseCode) := by
  unfold edgeGate
  infer_instance

/-- The branch the loop of `GetApiSubErrorMessagesForCommand` takes for a
sub-error: one of the four overrides of the custom logic, or the generic key. -/
inductive KeyChoice
  | requestField
  | requirementId
  | configVersionId
  | testSuiteId
  | generic
  deriving DecidableEq, Repr

/-- The key a branch resolves, built from the generic key `errorPath`, the
sub-error and its key, as the source writes it in that branch. -/
def choiceKey (U : UnicodeTables) (errorPath : Str) (subError : ApiSubError) (subErrorKey : Str) :
    KeyChoice → Str
  | KeyChoice.requestField =>
    errorPath ++ jsonPathSeparator ++ subError.RequestField ++ Title U subErrorKey
  | KeyChoice.requirementId =>
    errorPath ++ jsonPathSeparator ++ "requirementId".toList ++ "TestSuiteId".toList
      ++ Title U subErrorKey
  | KeyChoice.configVersionId =>
    errorPath ++ jsonPathSeparator ++ "configVersionId".toList ++ "TestSuiteId".toList
      ++ Title U subErrorKey
  | KeyChoice.testSuiteId =>
    errorPath ++ jsonPathSeparator ++ "testSuiteId".toList ++ "TestCaseId".toList
      ++ Title U subErrorKey
  | KeyChoice.generic => errorPath

/-- The control flow of the custom logic in the loop of
`GetApiSubErrorMessagesForCommand`, for a sub-error whose generic key is
`errorPath`: the first custom logic, then the three tests inside the second
one, then the fall through to the generic key. -/
def keyChoice (E : Env) (errorPath : Str) (subError : ApiSubError) : KeyChoice :=
  let subErrorKey := getErrorJsonKeyForErrorType E.tables subError.Typ
  if Contains "resourceNotFound,resourceInDeletedState".toList subErrorKey
      && checkIfMessageExist E
        (choiceKey E.tables errorPath subError subErrorKey KeyChoice.requestField) then
    KeyChoice.requestField
  else if Contains "associationNotFound".toList subErrorKey then
    if subError.RequirementId != 0
        && checkIfMessageExist E
          (choiceKey E.tables errorPath subError subErrorKey KeyChoice.requirementId) then
      KeyChoice.requirementId
    else if subError.ConfigVersionId != 0
        && checkIfMessageExist E
          (choiceKey E.tables errorPath subError subErrorKey KeyChoice.configVersionId) then
      KeyChoice.configVersionId
    else if subError.TestSuiteId != 0
        && checkIfMessageExist E
          (choiceKey E.tables errorPath subError subErrorKey KeyChoice.testSuiteId) then
      KeyChoice.testSuiteId
    else KeyChoice.generic
  else KeyChoice.generic

/-- The generic key of a sub-error: the key built from the command key, the
sub-resource, the operation, the parent error key and the sub-error's own key. -/
def genericKey (E : Env) (jsonPathForCommand parentErrorKey subResource operation : Str)
    (subError : ApiSubError) : Option Str :=
  getJsonPathForCommand E.tables
    (Join [jsonPathForCommand, subResource, operation, parentErrorKey,
      getErrorJsonKeyForErrorType E.tables subError.Typ] [' '])

/-- An environment like `sampleEnv` with the catalog given by its paths. -/
def envOf (entries : List (Str × Result)) : Env :=
  { sampleEnv with messageJson := catalogOf entries }

/-- An object node of a catalog, given by its raw text. -/
def node (raw : String) : Result := ⟨GType.JSON, raw.toList, [], []⟩

/-- The key of an API error without sub-errors: the key built from the command
key, the sub-resource, the operation and the parent error key. -/
def errorKey (E : Env) (jsonPathForCommand parentErrorKey subResource operation : Str) :
    Option Str :=
  getJsonPathForCommand E.tables
    (Join [jsonPathForCommand, subResource, operation, parentErrorKey] [' '])

/-- A catalog with request-field overrides: under the parent key `badRequest` an
override for the request field `suite` of a `resourceNotFound` sub-error, and
under the parent key `resourceNotFound` a key extended in the same way for an
`invalidValue` sub-error. -/
def overrideEnv : Env :=
  envOf
    [("akamai.fallback".toList, leaf "Something went wrong"),
     ("akamai.testCenter.testRun.submit.badRequest.resourceNotFound".toList,
        node "\x7b\"suiteResourceNotFound\":\"Suite missing\"\x7d"),
     ("akamai.testCenter.testRun.submit.badRequest.resourceNotFound.suiteResourceNotFound".toList,
        leaf "Suite missing"),
     ("akamai.testCenter.testRun.submit.resourceNotFound.invalidValue".toList,
        node "\x7b\"suiteInvalidValue\":\"Bad suite\"\x7d"),
     ("akamai.testCenter.testRun.submit.resourceNotFound.invalidValue.suiteInvalidValue".toList,
        leaf "Bad suite")]

/-- A candidate of the second custom logic qualifies: its numeric id field is
not zero and its extended key exists in the catalog. -/
def qualifies (E : Env) (errorPath : Str) (subError : ApiSubError) : KeyChoice → Bool
  | KeyChoice.requirementId =>
    subError.RequirementId != 0
      && checkIfMessageExist E (choiceKey E.tables errorPath subError
        (getErrorJsonKeyForErrorType E.tables subError.Typ) KeyChoice.requirementId)
  | KeyChoice.configVersionId =>
    subError.ConfigVersionId != 0
      && checkIfMessageExist E (choiceKey E.tables errorPath subError
        (getErrorJsonKeyForErrorType E.tables subError.Typ) KeyChoice.configVersionId)
  | KeyChoice.testSuiteId =>
    subError.TestSuiteId != 0
      && checkIfMessageExist E (choiceKey E.tables errorPath subError
        (getErrorJsonKeyForErrorType E.tables subError.Typ) KeyChoice.testSuiteId)
  | _ => false

/-- The second custom logic applies to a sub-error: the first custom logic did
not take it, and its key occurs in the text `associationNotFound`. -/
def associationApplies (E : Env) (errorPath : Str) (subError : ApiSubError) : Bool :=
  !(Contains "resourceNotFound,resourceInDeletedState".toList
        (getErrorJsonKeyForErrorType E.tables subError.Typ)
      && checkIfMessageExist E (choiceKey E.tables errorPath subError
        (getErrorJsonKeyForErrorType E.tables subError.Typ) KeyChoice.requestField))
    && Contains "associationNotFound".toList (getErrorJsonKeyForErrorType E.tables subError.Typ)

/-- A catalog with the overrides of an `associationNotFound` sub-error qualified
by the config version id and by the test suite id. -/
def associationEnv : Env :=
  envOf
    [("akamai.fallback".toList, leaf "Something went wrong"),
     ("akamai.testCenter.testRun.submit.badRequest.associationNotFound".toList,
        node "\x7b\x7d"),
     (("akamai.testCenter.testRun.submit.badRequest.associationNotFound."
        ++ "configVersionIdTestSuiteIdAssociationNotFound").toList,
        leaf "Suite \x7b\x7btestSuiteId\x7d\x7d is not tied to version \x7b\x7bconfigVersionId\x7d\x7d"),
     (("akamai.testCenter.testRun.submit.badRequest.associationNotFound."
        ++ "testSuiteIdTestCaseIdAssociationNotFound").toList,
        leaf "Case is not in suite \x7b\x7btestSuiteId\x7d\x7d")]

/-- The parent error key in the words of the claim: the error type with its
dot-separated segments after the first capitalised (their first letter mapped
to title case) and all segments concatenated. -/
def parentErrorKeySpec (U : UnicodeTables) (errorType : Str) : Str :=
  match Split errorType '.' with
  | [] => []
  | first :: later => first ++ (later.map (capitalize U)).flatten

/-- A catalog with a message for the key of the error type `errors.not+found`
as the code builds it. -/
def titleEnv : Env :=
  envOf
    [("akamai.fallback".toList, leaf "Something went wrong"),
     ("akamai.testCenter.testSuite.get.errorsNot+Found".toList, leaf "No such thing")]

/-- The output of the edge path in the words of the claim: the edge-grid message
keyed by the detail when the status is 400 or 401 and the detail is non-empty,
the edge-grid `resourceNotFound` message when the status is 404, the edge-grid
`notAuthorized` message when the response code is `401` and the error code is
non-empty, and last the global `initEdgeRc` message; each is printed with a
line feed after it. -/
def edgeOutput (E : Env) (apiError : ApiError) (responseCode : Str) : List Str :=
  (if (apiError.Status = 400 ∨ apiError.Status = 401) ∧ apiError.Detail ≠ [] then
      [GetEdgeGridErrorMessage E (getErrorJsonKeyForDetail E.tables apiError.Detail) ++ ['\n']]
    else [])
    ++ (if apiError.Status = 404 then
        [GetEdgeGridErrorMessage E "resourceNotFound".toList ++ ['\n']]
      else [])
    ++ (if responseCode = "401".toList ∧ apiError.Code ≠ [] then
        [GetEdgeGridErrorMessage E "notAuthorized".toList ++ ['\n']]
      else [])
    ++ [GetGlobalErrorMessage E "initEdgeRc".toList ++ ['\n']]

/-- A catalog that holds a fallback string, with a placeholder in it, and a
message whose key extends the key `invalidValue` without being under it. -/
def fallbackEnv : Env :=
  envOf [("akamai.fallback".toList, leaf "Failed: \x7b\x7btype\x7d\x7d"),
    ("akamai.testCenter.testSuite.get.badRequest.invalidValueOfName".toList, leaf "Bad name")]
/-! ## Facts about the library functions -/

theorem rangeStore_eq {α β : Type} (f : Nat → α → Option β) :
    ∀ (xs : List α) (i : Nat) (dst : List β), i ≤ dst.length →
      rangeStore f i xs dst =
        if i + xs.length ≤ dst.length then
          (collectFrom f i xs).map (fun vs => dst.take i ++ vs ++ dst.drop (i + xs.length))
        else none := by
  intro xs
  induction xs with
  | nil =>
    intro i dst hi
    simp [rangeStore, collectFrom, hi]
  | cons x xs ih =>
    intro i dst hi
    simp only [rangeStore, collectFrom, List.length_cons]
    cases hf : f i x with
    | none => simp
    | some v =>
      simp only [store]
      by_cases hlt : i < dst.length
      · simp only [hlt, if_true]
        rw [ih (i + 1) (dst.set i v) (by simpa using hlt)]
        have e1 : i + 1 + xs.length = i + (xs.length + 1) := by omega
        simp only [List.length_set, e1]
        by_cases hle : i + (xs.length + 1) ≤ dst.length
        · simp only [hle, if_true]
          cases collectFrom f (i + 1) xs with
          | none => simp
          | some vs =>
            simp only [Option.map_some']
            congr 1
            have e2 : (dst.set i v).take (i + 1) = dst.take i ++ [v] := by
              rw [List.set_eq_take_append_cons_drop, if_pos hlt]
              have hl : (dst.take i).length = i := by simp; omega
              rw [List.take_append_eq_append_take, hl]
              simp [List.take_of_length_le, hl]
            rw [List.drop_set_of_lt _ _ (by omega : i < i + (xs.length + 1)), e2]
            simp
        · simp [hle]
      · have : ¬ (i + (xs.length + 1) ≤ dst.length) := by omega
        simp [hlt, this]

theorem collectFrom_some {α β : Type} (h : Nat → α → β) :
    ∀ (xs : List α) (i : Nat), collectFrom (fun i x => some (h i x)) i xs = some (mapFrom h i xs) := by
  intro xs
  induction xs with
  | nil => intro i; rfl
  | cons x xs ih => intro i; simp [collectFrom, mapFrom, ih]

theorem Join_nil_sep (xs : List Str) : Join xs [] = xs.flatten := by
  unfold Join List.intercalate
  induction xs with
  | nil => rfl
  | cons x xs ih =>
    cases xs with
    | nil => simp
    | cons y ys =>
      simp only [List.intersperse_cons₂, List.flatten_cons, List.nil_append] at ih ⊢
      rw [ih]

theorem flatten_replicate_nil (n : Nat) : (List.replicate n ([] : Str)).flatten = [] := by
  induction n with
  | zero => rfl
  | succ n ih => simp [List.replicate_succ, ih]

theorem splitBy_ne_nil (p : Char → Bool) (s : Str) : splitBy p s ≠ [] := by
  cases s with
  | nil => simp [splitBy]
  | cons c cs =>
    simp only [splitBy]
    split
    · simp
    · split <;> simp

theorem splitBy_length (p : Char → Bool) (s : Str) :
    (splitBy p s).length = (s.filter p).length + 1 := by
  induction s with
  | nil => simp [splitBy]
  | cons c cs ih =>
    simp only [splitBy]
    by_cases hp : p c = true
    · simp [hp, ih]
    · simp only [hp, Bool.false_eq_true, if_false]
      cases hs : splitBy p cs with
      | nil => exact absurd hs (splitBy_ne_nil p cs)
      | cons w ws =>
        rw [hs] at ih
        simp [List.filter_cons, hp] at ih ⊢
        omega

theorem splitBy_mem (p : Char → Bool) (s : Str) :
    ∀ w ∈ splitBy p s, ∀ c ∈ w, c ∈ s ∧ p c = false := by
  induction s with
  | nil =>
    intro w hw c hc
    simp [splitBy] at hw
    subst hw
    simp at hc
  | cons d ds ih =>
    intro w hw c hc
    simp only [splitBy] at hw
    by_cases hp : p d = true
    · simp only [hp, if_true, List.mem_cons] at hw
      rcases hw with hw | hw
      · subst hw; simp at hc
      · have := ih w hw c hc
        exact ⟨List.mem_cons_of_mem _ this.1, this.2⟩
    · simp only [hp, Bool.false_eq_true, if_false] at hw
      cases hs : splitBy p ds with
      | nil => exact absurd hs (splitBy_ne_nil p ds)
      | cons v vs =>
        rw [hs] at hw ih
        simp only [List.mem_cons] at hw
        rcases hw with hw | hw
        · subst hw
          simp only [List.mem_cons] at hc
          rcases hc with hc | hc
          · subst hc
            exact ⟨List.mem_cons_self _ _, by simpa using hp⟩
          · have := ih v (List.mem_cons_self _ _) c hc
            exact ⟨List.mem_cons_of_mem _ this.1, this.2⟩
        · have := ih w (List.mem_cons_of_mem _ hw) c hc
          exact ⟨List.mem_cons_of_mem _ this.1, this.2⟩

theorem splitBy_of_none (p : Char → Bool) (s : Str) (h : ∀ c ∈ s, p c = false) :
    splitBy p s = [s] := by
  induction s with
  | nil => rfl
  | cons c cs ih =>
    have hc : p c = false := h c (List.mem_cons_self _ _)
    have hcs := ih (fun d hd => h d (List.mem_cons_of_mem _ hd))
    simp [splitBy, hc, hcs]

theorem length_le_byteLen (s : Str) : s.length ≤ byteLen s := by
  induction s with
  | nil => simp [byteLen]
  | cons c cs ih =>
    have : 0 < c.utf8Size := Char.utf8Size_pos c
    simp only [byteLen, List.map_cons, List.sum_cons, List.length_cons] at ih ⊢
    omega

theorem split_length_le_byteLen (str : Str) :
    (Split str '-').length ≤ byteLen str ↔ onlyHyphens str = false := by
  unfold Split
  rw [splitBy_length]
  induction str with
  | nil => simp [byteLen, onlyHyphens]
  | cons c cs ih =>
    have hlen := length_le_byteLen cs
    have hfl : (cs.filter (fun c => decide (c = '-'))).length ≤ cs.length := List.length_filter_le _ _
    have hpos : 0 < c.utf8Size := Char.utf8Size_pos c
    have hb : byteLen (c :: cs) = c.utf8Size + byteLen cs := by simp [byteLen]
    rw [hb]
    by_cases hc : c = '-'
    · subst hc
      have h1 : Char.utf8Size '-' = 1 := by decide
      have h2 : onlyHyphens ('-' :: cs) = onlyHyphens cs := by simp [onlyHyphens]
      rw [h2, ← ih, h1]
      simp only [List.filter_cons, decide_True, if_true, List.length_cons]
      omega
    · have h2 : onlyHyphens (c :: cs) = false := by simp [onlyHyphens, hc]
      simp only [h2, List.filter_cons, hc, decide_False, Bool.false_eq_true, if_false, iff_true]
      omega

theorem mapFrom_succ (U : UnicodeTables) (xs : List Str) (i : Nat) :
    mapFrom (fun i2 s => if i2 = 0 then s else Title U s) (i + 1) xs = xs.map (Title U) := by
  induction xs generalizing i with
  | nil => rfl
  | cons x xs ih => simp [mapFrom, ih]

theorem dashRemoved_eq (U : UnicodeTables) (str : Str) :
    dashRemoved U str = if onlyHyphens str then none else some (camel U str) := by
  unfold dashRemoved
  rw [rangeStore_eq _ _ _ _ (Nat.zero_le _), collectFrom_some]
  simp only [List.length_replicate, Nat.zero_add]
  by_cases h : onlyHyphens str = true
  · have : ¬ (Split str '-').length ≤ byteLen str := by
      rw [split_length_le_byteLen]; simp [h]
    simp [this, h]
  · have h2 : onlyHyphens str = false := by simpa using h
    have : (Split str '-').length ≤ byteLen str := (split_length_le_byteLen str).2 h2
    simp only [this, if_true, h2, Bool.false_eq_true, if_false, Option.map_some', List.take_zero,
      List.nil_append, List.drop_replicate]
    rw [Join_nil_sep, List.flatten_append, flatten_replicate_nil, List.append_nil]
    unfold camel
    cases hs : Split str '-' with
    | nil => rfl
    | cons first later => simp [mapFrom, mapFrom_succ]

theorem collectFrom_dashRemoved (U : UnicodeTables) (ws : List Str) (i : Nat) :
    collectFrom (fun _ str => dashRemoved U str) i ws =
      if ws.any onlyHyphens then none else some (ws.map (camel U)) := by
  induction ws generalizing i with
  | nil => rfl
  | cons w ws ih =>
    simp only [collectFrom, List.any_cons, List.map_cons]
    rw [dashRemoved_eq, ih]
    by_cases hw : onlyHyphens w = true
    · simp [hw]
    · have hw2 : onlyHyphens w = false := by simpa using hw
      simp only [hw2, Bool.false_eq_true, if_false, Bool.false_or]
      by_cases ha : ws.any onlyHyphens = true
      · simp [ha]
      · simp [ha]

theorem getJsonPathForCommand_eq (U : UnicodeTables) (cmdString : Str) :
    getJsonPathForCommand U cmdString =
      if (Fields cmdString).any onlyHyphens then none
      else if Contains (converted U cmdString) rootCommandName then some (converted U cmdString)
      else some (rootCommandName ++ jsonPathSeparator ++ converted U cmdString) := by
  unfold getJsonPathForCommand
  simp only []
  rw [rangeStore_eq _ _ _ _ (Nat.zero_le _), collectFrom_dashRemoved]
  simp only [List.length_replicate, Nat.zero_add, Nat.le_refl, if_true]
  by_cases ha : (Fields cmdString).any onlyHyphens = true
  · simp [ha]
  · simp only [ha, Bool.false_eq_true, if_false, Option.map_some', List.take_zero, List.nil_append,
      List.drop_replicate, Nat.sub_self, List.replicate_zero, List.append_nil]
    have hj : Join [rootCommandName, Join ((Fields cmdString).map (camel U)) jsonPathSeparator]
        jsonPathSeparator
        = rootCommandName ++ jsonPathSeparator
          ++ Join ((Fields cmdString).map (camel U)) jsonPathSeparator := by
      simp [Join, List.intercalate]
    simp only [converted, hj, List.length_map]

theorem ofNat_upper_plain (n : Nat) (h1 : 97 ≤ n) (h2 : n ≤ 122) : plain (Char.ofNat (n - 32)) := by
  unfold plain
  interval_cases n <;> decide

theorem ToTitle_plain (U : UnicodeTables) (c : Char) (h : plain c) : plain (ToTitle U c) := by
  unfold ToTitle
  by_cases ha : c.toNat ≤ 0x7F
  · simp only [ha, if_true]
    by_cases hl : 97 ≤ c.toNat ∧ c.toNat ≤ 122
    · simp only [hl, and_self, if_true]
      exact ofNat_upper_plain _ hl.1 hl.2
    · simp only [hl, if_false]
      exact h
  · simp only [ha, if_false]
    exact ⟨U.title_not_space c (by omega) h.1, U.title_not_hyphen c (by omega)⟩

theorem titleFrom_plain (U : UnicodeTables) (s : Str) (h : ∀ c ∈ s, plain c) :
    ∀ prev, ∀ c ∈ titleFrom U prev s, plain c := by
  induction s with
  | nil => intro prev c hc; simp [titleFrom] at hc
  | cons d ds ih =>
    intro prev c hc
    simp only [titleFrom, List.mem_cons] at hc
    rcases hc with hc | hc
    · subst hc
      split
      · exact ToTitle_plain U d (h d (List.mem_cons_self _ _))
      · exact h d (List.mem_cons_self _ _)
    · exact ih (fun e he => h e (List.mem_cons_of_mem _ he)) d c hc

theorem camel_plain (U : UnicodeTables) (w : Str) (h : ∀ c ∈ w, isSpace c = false) :
    ∀ c ∈ camel U w, plain c := by
  have hparts : ∀ v ∈ Split w '-', ∀ c ∈ v, plain c := by
    intro v hv c hc
    have := splitBy_mem _ w v hv c hc
    exact ⟨h c this.1, by simpa using this.2⟩
  intro c hc
  unfold camel at hc
  cases hs : Split w '-' with
  | nil => rw [hs] at hc; simp at hc
  | cons first later =>
    rw [hs] at hc hparts
    simp only [List.mem_append, List.mem_flatten, List.mem_map] at hc
    rcases hc with hc | ⟨_, ⟨v, hv, rfl⟩, hc⟩
    · exact hparts first (List.mem_cons_self _ _) c hc
    · exact titleFrom_plain U v (hparts v (List.mem_cons_of_mem _ hv)) _ c hc

theorem Fields_mem (s : Str) : ∀ w ∈ Fields s, w ≠ [] ∧ ∀ c ∈ w, isSpace c = false := by
  intro w hw
  simp only [Fields, List.mem_filter] at hw
  refine ⟨?_, fun c hc => (splitBy_mem _ s w hw.1 c hc).2⟩
  intro he
  rw [he] at hw
  simp at hw

theorem mem_Join (xs : List Str) (sep : Str) (c : Char) (h : c ∈ Join xs sep) :
    c ∈ sep ∨ ∃ x ∈ xs, c ∈ x := by
  unfold Join List.intercalate at h
  induction xs with
  | nil => simp at h
  | cons x xs ih =>
    cases xs with
    | nil =>
      simp at h
      exact Or.inr ⟨x, List.mem_cons_self _ _, h⟩
    | cons y ys =>
      simp only [List.intersperse_cons₂, List.flatten_cons, List.mem_append] at h ih
      rcases h with h | h | h
      · exact Or.inr ⟨x, List.mem_cons_self _ _, h⟩
      · exact Or.inl h
      · rcases ih h with h | ⟨z, hz, hc⟩
        · exact Or.inl h
        · exact Or.inr ⟨z, List.mem_cons_of_mem _ hz, hc⟩

theorem converted_plain (U : UnicodeTables) (p : Str) : ∀ c ∈ converted U p, plain c := by
  intro c hc
  rcases mem_Join _ _ c hc with h | ⟨x, hx, hcx⟩
  · simp [jsonPathSeparator] at h
    subst h
    exact ⟨by decide, by decide⟩
  · simp only [List.mem_map] at hx
    obtain ⟨w, hw, rfl⟩ := hx
    exact camel_plain U w (Fields_mem p w hw).2 c hcx

theorem isPrefixOf_mem (a s : Str) (h : a.isPrefixOf s = true) : ∀ c ∈ a, c ∈ s := by
  induction a generalizing s with
  | nil => intro c hc; simp at hc
  | cons x a ih =>
    cases s with
    | nil => simp [List.isPrefixOf] at h
    | cons y s =>
      simp only [List.isPrefixOf, Bool.and_eq_true, beq_iff_eq] at h
      intro c hc
      simp only [List.mem_cons] at hc ⊢
      rcases hc with hc | hc
      · exact Or.inl (hc.trans h.1)
      · exact Or.inr (ih s h.2 c hc)

theorem Contains_mem (s substr : Str) (h : Contains s substr = true) : ∀ c ∈ substr, c ∈ s := by
  induction s with
  | nil =>
    simp only [Contains, List.isEmpty_iff] at h
    subst h
    intro c hc
    simp at hc
  | cons d ds ih =>
    simp only [Contains, Bool.or_eq_true] at h
    rcases h with h | h
    · exact isPrefixOf_mem _ _ h
    · intro c hc
      exact List.mem_cons_of_mem _ (ih h c hc)

theorem Contains_append_self (a b : Str) (ha : a ≠ []) : Contains (a ++ b) a = true := by
  cases a with
  | nil => exact absurd rfl ha
  | cons x a =>
    have : List.isPrefixOf (x :: a) (x :: a ++ b) = true := by
      rw [List.isPrefixOf_iff_prefix]
      exact List.prefix_append _ _
    simp only [List.cons_append, Contains, Bool.or_eq_true]
    exact Or.inl this

theorem Fields_of_plain (r : Str) (hne : r ≠ []) (h : ∀ c ∈ r, plain c) : Fields r = [r] := by
  unfold Fields
  rw [splitBy_of_none _ r (fun c hc => (h c hc).1)]
  cases r with
  | nil => exact absurd rfl hne
  | cons c cs => simp

theorem camel_of_plain (U : UnicodeTables) (r : Str) (h : ∀ c ∈ r, plain c) : camel U r = r := by
  unfold camel Split
  rw [splitBy_of_none _ r (fun c hc => by simpa using (h c hc).2)]
  simp

/-- The key builder gives back a key that holds the root command name and is
free of white space and hyphens. -/
theorem getJsonPathForCommand_fixed (U : UnicodeTables) (r : Str)
    (hc : Contains r rootCommandName = true) (h : ∀ c ∈ r, plain c) :
    getJsonPathForCommand U r = some r := by
  have ha : 'a' ∈ r := Contains_mem r _ hc 'a' (by decide)
  have hne : r ≠ [] := by intro he; rw [he] at ha; simp at ha
  have hoh : onlyHyphens r = false := by
    simp only [onlyHyphens, List.all_eq_false]
    exact ⟨'a', ha, by decide⟩
  rw [getJsonPathForCommand_eq]
  have hconv : converted U r = r := by
    simp [converted, Fields_of_plain r hne h, camel_of_plain U r h, Join, List.intercalate]
  simp [Fields_of_plain r hne h, hoh, hconv, hc]

theorem getJsonPathForCommand_plain (U : UnicodeTables) (p r : Str)
    (hr : getJsonPathForCommand U p = some r) :
    Contains r rootCommandName = true ∧ ∀ c ∈ r, plain c := by
  rw [getJsonPathForCommand_eq] at hr
  by_cases ha : (Fields p).any onlyHyphens = true
  · simp [ha] at hr
  · simp only [ha, Bool.false_eq_true, if_false] at hr
    by_cases hc : Contains (converted U p) rootCommandName = true
    · simp only [hc, if_true, Option.some.injEq] at hr
      subst hr
      exact ⟨hc, converted_plain U p⟩
    · simp only [hc, Bool.false_eq_true, if_false, Option.some.injEq] at hr
      subst hr
      refine ⟨by rw [List.append_assoc]; exact Contains_append_self _ _ (by decide), ?_⟩
      intro c hcm
      simp only [List.mem_append] at hcm
      rcases hcm with (hcm | hcm) | hcm
      · have : ∀ d ∈ rootCommandName, plain d := by unfold plain; decide
        exact this c hcm
      · have : ∀ d ∈ jsonPathSeparator, plain d := by unfold plain; decide
        exact this c hcm
      · exact converted_plain U p c hcm


theorem countOcc_of_not_Contains (substr s : Str) (h : Contains s substr = false) :
    countOcc substr s = 0 := by
  induction s with
  | nil => simpa [Contains, countOcc] using h
  | cons c cs ih =>
    simp only [Contains, Bool.or_eq_false_iff] at h
    simp [countOcc, h.1, ih h.2]

theorem countOcc_root (s : Str) (h : Contains s rootCommandName = false) :
    countOcc rootCommandName (rootCommandName ++ jsonPathSeparator ++ s) = 1 := by
  have h0 := countOcc_of_not_Contains _ _ h
  simp [rootCommandName, jsonPathSeparator, countOcc, List.isPrefixOf] at h0 ⊢
  exact h0

/-! ## The key builder -/

/-- C1, as stated, fails: for the command path `x-a.b` the candidate key of the
reference definition does not hold the root namespace and the reference key is
`akamai.xA.b`, while `getJsonPathForCommand` returns `akamai.xA.B`, because
`strings.Title` capitalises the first letter of every word of a hyphen part. -/
theorem getJsonPathForCommand_reference_counterexample :
    Contains (candidateSpec asciiTables "x-a.b".toList) rootCommandName = false
      ∧ getJsonPathForCommand asciiTables "x-a.b".toList = some "akamai.xA.B".toList
      ∧ buildCommandKeySpec asciiTables "x-a.b".toList = "akamai.xA.b".toList
      ∧ getJsonPathForCommand asciiTables "x-a.b".toList
          ≠ some (buildCommandKeySpec asciiTables "x-a.b".toList) := by
  decide

/-- C1, amended: for every command path with no word made of hyphens only whose
converted text does not hold the root command name, `getJsonPathForCommand`
returns the root command name, a dot, and the dot-joined words, each word being
its first hyphen part as it is followed by the later hyphen parts through
`strings.Title`; and for `test-center test-suite view` it returns
`akamai.testCenter.testSuite.view`. -/
theorem getJsonPathForCommand_reference (U : UnicodeTables) (cmdString : Str)
    (hw : hyphenWord cmdString = false)
    (hc : Contains (Join ((Fields cmdString).map (camel U)) jsonPathSeparator) rootCommandName
      = false) :
    getJsonPathForCommand U cmdString
        = some (rootCommandName ++ jsonPathSeparator
            ++ Join ((Fields cmdString).map (camel U)) jsonPathSeparator)
      ∧ getJsonPathForCommand U "test-center test-suite view".toList
        = some "akamai.testCenter.testSuite.view".toList := by
  unfold hyphenWord at hw
  constructor
  · rw [getJsonPathForCommand_eq]
    simp only [converted, hw, hc, Bool.false_eq_true, if_false]
  · rfl

theorem getJsonPathForCommand_reference_witness :
    getJsonPathForCommand asciiTables "test-center test-suite view".toList
        = some (rootCommandName ++ jsonPathSeparator
            ++ Join ((Fields "test-center test-suite view".toList).map (camel asciiTables))
              jsonPathSeparator)
      ∧ getJsonPathForCommand asciiTables "test-center test-suite view".toList
        = some "akamai.testCenter.testSuite.view".toList :=
  getJsonPathForCommand_reference asciiTables "test-center test-suite view".toList
    (by decide) (by decide)

/-- C2, as stated, fails: for `xakamai` the key builder returns `xakamai`, which
does not start with the root command name, and for `akamai akamai` it returns
`akamai.akamai`, which holds the root command name twice. -/
theorem getJsonPathForCommand_root_counterexample :
    getJsonPathForCommand asciiTables "xakamai".toList = some "xakamai".toList
      ∧ rootCommandName.isPrefixOf "xakamai".toList = false
      ∧ getJsonPathForCommand asciiTables "akamai akamai".toList = some "akamai.akamai".toList
      ∧ countOcc rootCommandName "akamai.akamai".toList = 2 := by
  decide

/-- C2, amended: for every command path with no word made of hyphens only, when
the converted text does not hold the root command name the result is the root
command name, a dot and the converted text, which starts with the root command
name and holds it exactly once; when the converted text holds the root command
name, wherever, the result is the converted text unchanged. -/
theorem getJsonPathForCommand_root (U : UnicodeTables) (cmdString : Str)
    (hw : hyphenWord cmdString = false) :
    (Contains (converted U cmdString) rootCommandName = false →
        getJsonPathForCommand U cmdString
            = some (rootCommandName ++ jsonPathSeparator ++ converted U cmdString)
          ∧ rootCommandName.isPrefixOf
              (rootCommandName ++ jsonPathSeparator ++ converted U cmdString) = true
          ∧ countOcc rootCommandName
              (rootCommandName ++ jsonPathSeparator ++ converted U cmdString) = 1)
      ∧ (Contains (converted U cmdString) rootCommandName = true →
        getJsonPathForCommand U cmdString = some (converted U cmdString)) := by
  unfold hyphenWord at hw
  constructor
  · intro hc
    refine ⟨?_, ?_, countOcc_root _ hc⟩
    · rw [getJsonPathForCommand_eq]
      simp only [hw, hc, Bool.false_eq_true, if_false]
    · rw [List.isPrefixOf_iff_prefix, List.append_assoc]
      exact List.prefix_append _ _
  · intro hc
    rw [getJsonPathForCommand_eq]
    simp only [hw, hc, Bool.false_eq_true, if_false, if_true]

theorem getJsonPathForCommand_root_witness :
    (Contains (converted asciiTables "test-center view".toList) rootCommandName = false →
        getJsonPathForCommand asciiTables "test-center view".toList
            = some (rootCommandName ++ jsonPathSeparator
                ++ converted asciiTables "test-center view".toList)
          ∧ rootCommandName.isPrefixOf
              (rootCommandName ++ jsonPathSeparator
                ++ converted asciiTables "test-center view".toList) = true
          ∧ countOcc rootCommandName
              (rootCommandName ++ jsonPathSeparator
                ++ converted asciiTables "test-center view".toList) = 1)
      ∧ (Contains (converted asciiTables "test-center view".toList) rootCommandName = true →
        getJsonPathForCommand asciiTables "test-center view".toList
          = some (converted asciiTables "test-center view".toList)) :=
  getJsonPathForCommand_root asciiTables "test-center view".toList (by decide)

/-- C3: the key builder is idempotent. For every command path, applying
`getJsonPathForCommand` to its own result gives that result again (where the
first call panics there is no result to apply it to, and both sides are the
panic). -/
theorem getJsonPathForCommand_idempotent (U : UnicodeTables) (cmdString : Str) :
    (getJsonPathForCommand U cmdString).bind (getJsonPathForCommand U)
      = getJsonPathForCommand U cmdString := by
  cases hr : getJsonPathForCommand U cmdString with
  | none => rfl
  | some r =>
    have h := getJsonPathForCommand_plain U cmdString r hr
    simp only [Option.some_bind]
    exact getJsonPathForCommand_fixed U r h.1 h.2

/-! ## The resolver -/

/-- C4: for every catalog and every lookup key, `getMessageForJsonPathOrFallback`
returns the catalog value at the key when the path exists and its value is a
string, and otherwise (the path is absent, or its value is no string) the
catalog's fallback string; so every key absent from the catalog resolves to the
fallback string. -/
theorem getMessageForJsonPathOrFallback_spec (E : Env) (jsonPath : Str) :
    ((E.messageJson jsonPath).Exists = true ∧ (E.messageJson jsonPath).Typ = GType.String →
        getMessageForJsonPathOrFallback E jsonPath = (E.messageJson jsonPath).Str)
      ∧ (¬ ((E.messageJson jsonPath).Exists = true ∧ (E.messageJson jsonPath).Typ = GType.String) →
        getMessageForJsonPathOrFallback E jsonPath = fallbackString E)
      ∧ ((E.messageJson jsonPath).Exists = false →
        getMessageForJsonPathOrFallback E jsonPath = fallbackString E) := by
  refine ⟨?_, ?_, ?_⟩
  · intro h
    simp [getMessageForJsonPathOrFallback, h.1, h.2, Result.String]
  · intro h
    have hf : fallbackString E
        = (E.messageJson (rootCommandName ++ jsonPathSeparator ++ fallbackKey)).String := rfl
    rw [hf]
    unfold getMessageForJsonPathOrFallback
    by_cases h1 : (E.messageJson jsonPath).Exists = true
    · have h2 : (E.messageJson jsonPath).Typ ≠ GType.String := fun h2 => h ⟨h1, h2⟩
      simp [h1, h2]
    · simp [h1]
  · intro h
    have hf : fallbackString E
        = (E.messageJson (rootCommandName ++ jsonPathSeparator ++ fallbackKey)).String := rfl
    rw [hf]
    simp [getMessageForJsonPathOrFallback, h]

/-! ## Cutting and replacing -/

theorem cutAt_some_eq (pat : Str) : ∀ (s a b : Str), cutAt pat s = some (a, b) → s = a ++ pat ++ b := by
  intro s
  induction s with
  | nil =>
    intro a b h
    simp only [cutAt] at h
    split at h
    · rename_i hp
      simp only [Option.some.injEq, Prod.mk.injEq] at h
      rw [List.isEmpty_iff] at hp
      simp [← h.1, ← h.2, hp]
    · exact absurd h (by simp)
  | cons c cs ih =>
    intro a b h
    simp only [cutAt] at h
    split at h
    · rename_i hp
      simp only [Option.some.injEq, Prod.mk.injEq] at h
      rw [List.isPrefixOf_iff_prefix, List.prefix_iff_eq_append] at hp
      rw [← h.1, ← h.2, List.nil_append]
      exact hp.symm
    · cases hc : cutAt pat cs with
      | none => rw [hc] at h; exact absurd h (by simp)
      | some ab =>
        obtain ⟨a1, b1⟩ := ab
        rw [hc] at h
        simp only [Option.some.injEq, Prod.mk.injEq] at h
        rw [← h.1, ← h.2, ih a1 b1 hc]
        simp

theorem cutAt_some_first (pat : Str) : ∀ (s a b : Str), cutAt pat s = some (a, b) →
    ∀ a2 b2 : Str, s = a2 ++ pat ++ b2 → a.length ≤ a2.length := by
  intro s
  induction s with
  | nil =>
    intro a b h a2 b2 _
    simp only [cutAt] at h
    split at h
    · simp only [Option.some.injEq, Prod.mk.injEq] at h
      simp [← h.1]
    · exact absurd h (by simp)
  | cons c cs ih =>
    intro a b h a2 b2 hs
    simp only [cutAt] at h
    split at h
    · simp only [Option.some.injEq, Prod.mk.injEq] at h
      simp [← h.1]
    · rename_i hp
      cases hc : cutAt pat cs with
      | none => rw [hc] at h; exact absurd h (by simp)
      | some ab =>
        obtain ⟨a1, b1⟩ := ab
        rw [hc] at h
        simp only [Option.some.injEq, Prod.mk.injEq] at h
        cases a2 with
        | nil =>
          exfalso
          apply hp
          rw [List.isPrefixOf_iff_prefix, hs, List.nil_append]
          exact List.prefix_append _ _
        | cons x a2 =>
          simp only [List.cons_append, List.cons.injEq] at hs
          have := ih a1 b1 hc a2 b2 hs.2
          rw [← h.1]
          simp only [List.length_cons]
          omega

theorem cutAt_none (pat : Str) : ∀ (s : Str), cutAt pat s = none →
    ∀ a b : Str, s ≠ a ++ pat ++ b := by
  intro s
  induction s with
  | nil =>
    intro h a b hs
    simp only [cutAt] at h
    split at h
    · exact absurd h (by simp)
    · rename_i hp
      apply hp
      have : a ++ pat ++ b = [] := hs.symm
      simp only [List.append_eq_nil] at this
      simp [this.1.2]
  | cons c cs ih =>
    intro h a b hs
    simp only [cutAt] at h
    split at h
    · exact absurd h (by simp)
    · rename_i hp
      cases hc : cutAt pat cs with
      | some ab => rw [hc] at h; exact absurd h (by simp)
      | none =>
        cases a with
        | nil =>
          apply hp
          rw [List.isPrefixOf_iff_prefix, hs, List.nil_append]
          exact List.prefix_append _ _
        | cons x a =>
          simp only [List.cons_append, List.cons.injEq] at hs
          exact ih hc a b hs.2

theorem replaceFrom_skip (old new : Str) : ∀ (xs ys : Str),
    replaceFrom old new xs.length (xs ++ ys) = replaceFrom old new 0 ys := by
  intro xs
  induction xs with
  | nil => intro ys; rfl
  | cons x xs ih => intro ys; simp [replaceFrom, ih]

theorem replaceFrom_none (old new : Str) : ∀ (s : Str), (∀ a b : Str, s ≠ a ++ old ++ b) →
    replaceFrom old new 0 s = s := by
  intro s
  induction s with
  | nil => intro _; rfl
  | cons c cs ih =>
    intro h
    have hp : ¬ (old.isPrefixOf (c :: cs) = true) := by
      intro hp
      rw [List.isPrefixOf_iff_prefix] at hp
      obtain ⟨b, hb⟩ := hp
      exact h [] b (by simp [hb])
    have hcs : ∀ a b : Str, cs ≠ a ++ old ++ b := by
      intro a b hab
      exact h (c :: a) b (by simp [hab])
    simp [replaceFrom, hp, ih hcs]

theorem replaceFrom_first (old new : Str) (hold : old ≠ []) : ∀ (pre post : Str),
    (∀ a b : Str, pre ++ old ++ post = a ++ old ++ b → pre.length ≤ a.length) →
    replaceFrom old new 0 (pre ++ old ++ post) = pre ++ new ++ replaceFrom old new 0 post := by
  intro pre
  induction pre with
  | nil =>
    intro post _
    cases old with
    | nil => exact absurd rfl hold
    | cons o os =>
      have hp : (o :: os).isPrefixOf (o :: os ++ post) = true := by
        rw [List.isPrefixOf_iff_prefix]
        exact List.prefix_append _ _
      simp only [List.nil_append, List.cons_append] at hp ⊢
      simp only [replaceFrom, hp, if_true, List.length_cons, Nat.add_sub_cancel]
      rw [replaceFrom_skip]
  | cons c pre ih =>
    intro post h
    have hp : ¬ (old.isPrefixOf (c :: pre ++ old ++ post) = true) := by
      intro hp
      rw [List.isPrefixOf_iff_prefix] at hp
      obtain ⟨b, hb⟩ := hp
      have := h [] b (by simp [hb])
      simp at this
    have hpre : ∀ a b : Str, pre ++ old ++ post = a ++ old ++ b → pre.length ≤ a.length := by
      intro a b hab
      have := h (c :: a) b (by simp [hab])
      simpa using this
    simp only [List.cons_append] at hp ⊢
    simp only [replaceFrom, hp, if_false]
    rw [ih post hpre]
    simp

theorem placeHolder_ne_nil (n : Str) : placeHolder n ≠ [] := by
  simp [placeHolder]

theorem ReplaceAll_placeHolder (s n new : Str) :
    ReplaceAll s (placeHolder n) new = replaceFrom (placeHolder n) new 0 s := by
  simp [ReplaceAll, placeHolder]

theorem scanPlaceHolders_eq_nil (t : Str) (h : ∀ n : Str, ¬ (placeHolder n <:+: t)) :
    ∀ fuel, scanPlaceHolders fuel t = [] := by
  intro fuel
  cases fuel with
  | zero => rfl
  | succ k =>
    simp only [scanPlaceHolders]
    cases h1 : cutAt ['{', '{'] t with
    | none => rfl
    | some ar =>
      obtain ⟨a, r1⟩ := ar
      cases h2 : cutAt ['}', '}'] r1 with
      | none => simp [h2]
      | some nr =>
        obtain ⟨name, r2⟩ := nr
        exfalso
        apply h name
        refine ⟨a, r2, ?_⟩
        rw [cutAt_some_eq _ _ _ _ h1, cutAt_some_eq _ _ _ _ h2]
        simp [placeHolder]

/-! ## Placeholder interpolation -/

/-- C5: for every template that holds no placeholder (no text of the form of a
name in double braces occurs in it) and every context object,
`getReplacedPlaceholderMessage` returns the template. -/
theorem getReplacedPlaceholderMessage_no_placeholder (U : UnicodeTables) (error : Obj)
    (errorMessage : Str) (h : ∀ n : Str, ¬ (placeHolder n <:+: errorMessage)) :
    getReplacedPlaceholderMessage U error errorMessage = some errorMessage := by
  unfold getReplacedPlaceholderMessage GetPlaceHoldersInString
  rw [scanPlaceHolders_eq_nil errorMessage h]
  rfl

theorem getReplacedPlaceholderMessage_no_placeholder_witness :
    (∀ n : Str, ¬ (placeHolder n <:+: "a \x7bb\x7d c".toList))
      ∧ getReplacedPlaceholderMessage asciiTables [⟨"B".toList, true, Value.int 1⟩]
          "a \x7bb\x7d c".toList = some "a \x7bb\x7d c".toList :=
  have h : ∀ n : Str, ¬ (placeHolder n <:+: "a \x7bb\x7d c".toList) := fun n hn =>
    absurd (List.IsInfix.trans ⟨[], n ++ ['}', '}'], by simp [placeHolder]⟩ hn :
      ['{', '{'] <:+: "a \x7bb\x7d c".toList) (by decide)
  ⟨h, getReplacedPlaceholderMessage_no_placeholder asciiTables _ _ h⟩

theorem scanPlaceHolders_succ : ∀ (k : Nat) (t : Str), t.length ≤ k →
    scanPlaceHolders (k + 1) t = scanPlaceHolders k t := by
  intro k
  induction k with
  | zero =>
    intro t ht
    have : t = [] := List.length_eq_zero.1 (by omega)
    subst this
    rfl
  | succ k ih =>
    intro t ht
    rw [scanPlaceHolders, scanPlaceHolders]
    cases h1 : cutAt ['{', '{'] t with
    | none => rfl
    | some ar =>
      obtain ⟨a, r1⟩ := ar
      cases h2 : cutAt ['}', '}'] r1 with
      | none => simp [h2]
      | some nr =>
        obtain ⟨name, r2⟩ := nr
        have e1 := congrArg List.length (cutAt_some_eq _ t a r1 h1)
        have e2 := congrArg List.length (cutAt_some_eq _ r1 name r2 h2)
        simp only [List.length_append, List.length_cons, List.length_nil] at e1 e2
        simp only [h2, List.cons.injEq, true_and]
        exact ih r2 (by omega)

/-- The fuel of `GetPlaceHoldersInString` is enough: more fuel finds no further
placeholder. -/
theorem scanPlaceHolders_fuel (t : Str) : ∀ k, t.length ≤ k →
    scanPlaceHolders k t = scanPlaceHolders t.length t := by
  intro k hk
  induction k with
  | zero =>
    have : t.length = 0 := by omega
    rw [this]
  | succ k ih =>
    by_cases h : t.length ≤ k
    · rw [scanPlaceHolders_succ k t h]
      exact ih h
    · have : t.length = k + 1 := by omega
      rw [this]

theorem append_eq_append_left {α : Type} (l u r w : List α) (h : l ++ u = r ++ w)
    (hlen : l.length ≤ r.length) : ∃ z, r = l ++ z ∧ u = z ++ w := by
  rcases List.append_eq_append_iff.1 h with ⟨z, hz, hu⟩ | ⟨z, hz, hw⟩
  · exact ⟨z, hz, hu⟩
  · have hz0 : z = [] := by
      have := congrArg List.length hz
      simp only [List.length_append] at this
      exact List.length_eq_zero.1 (by omega)
    subst hz0
    refine ⟨[], by simpa using hz.symm, by simpa using hw.symm⟩

theorem append_eq_append_right {α : Type} (x c u z : List α) (h : x ++ c = u ++ z)
    (hlen : c.length ≤ z.length) : ∃ w, z = w ++ c ∧ x = u ++ w := by
  rcases List.append_eq_append_iff.1 h with ⟨w, hu, hc⟩ | ⟨w, hx, hz⟩
  · have hw0 : w = [] := by
      have := congrArg List.length hc
      simp only [List.length_append] at this
      exact List.length_eq_zero.1 (by omega)
    subst hw0
    refine ⟨[], by simpa using hc.symm, by simpa using hu.symm⟩
  · exact ⟨w, hz, hx⟩

theorem scanPlaceHolders_nil_no_occurrence (k : Nat) (r : Str)
    (h : scanPlaceHolders (k + 1) r = []) : ∀ m : Str, ¬ (placeHolder m <:+: r) := by
  intro m hm
  obtain ⟨x, y, hxy⟩ := hm
  have hr : r = x ++ ['{', '{'] ++ (m ++ ['}', '}'] ++ y) := by
    rw [← hxy]; simp [placeHolder]
  simp only [scanPlaceHolders] at h
  cases h1 : cutAt ['{', '{'] r with
  | none => exact cutAt_none _ r h1 _ _ hr
  | some ar =>
    obtain ⟨a3, r3⟩ := ar
    rw [h1] at h
    cases h2 : cutAt ['}', '}'] r3 with
    | some nr =>
      obtain ⟨name, r2⟩ := nr
      simp [h2] at h
    | none =>
      have hlen := cutAt_some_first _ r a3 r3 h1 _ _ hr
      have heq := cutAt_some_eq _ r a3 r3 h1
      have h3 : (a3 ++ ['{', '{']) ++ r3 = (x ++ ['{', '{'] ++ m) ++ (['}', '}'] ++ y) := by
        rw [← heq, hr]; simp
      obtain ⟨z, _, hz⟩ := append_eq_append_left _ _ _ _ h3 (by simp; omega)
      exact cutAt_none _ r3 h2 z y (by rw [hz]; simp)

theorem placeHolder_no_border (n z u zz : Str) (h1 : placeHolder n = u ++ z)
    (h2 : placeHolder n = z ++ zz) (hz : z ≠ []) (hzz : zz ≠ [])
    (hlazy : ∀ a2 b2 : Str, n ++ ['}', '}'] = a2 ++ ['}', '}'] ++ b2 → n.length ≤ a2.length) :
    False := by
  have hP : placeHolder n = '{' :: '{' :: (n ++ ['}', '}']) := by simp [placeHolder]
  -- the overlap starts with the two opening braces or is shorter
  cases z with
  | nil => exact hz rfl
  | cons c1 z1 =>
    rw [hP] at h2
    simp only [List.cons_append, List.cons.injEq] at h2
    obtain ⟨hc1, h2⟩ := h2
    subst hc1
    cases z1 with
    | nil =>
      -- the overlap is one opening brace, but the placeholder ends in a closing one
      have h3 : ('{' :: '{' :: (n ++ ['}'])) ++ ['}'] = u ++ ['{'] := by
        rw [← h1, hP]; simp
      obtain ⟨w, hw, _⟩ := append_eq_append_right _ _ _ _ h3 (by simp)
      cases w with
      | nil => simp at hw
      | cons x w => simp at hw
    | cons c2 z2 =>
      simp only [List.cons_append, List.cons.injEq] at h2
      obtain ⟨hc2, h2⟩ := h2
      subst hc2
      have h3 : ('{' :: '{' :: n) ++ ['}', '}'] = u ++ ('{' :: '{' :: z2) := by
        rw [← h1, hP]; simp
      obtain ⟨w, hw, _⟩ := append_eq_append_right _ _ _ _ h3 (by simp)
      cases w with
      | nil => simp at hw
      | cons x w =>
        cases w with
        | nil => simp at hw
        | cons y w =>
          simp only [List.cons_append, List.cons.injEq] at hw
          obtain ⟨_, _, hw⟩ := hw
          have h4 : n ++ ['}', '}'] = w ++ ['}', '}'] ++ zz := by
            rw [h2, hw]
          have hle := hlazy w zz h4
          have hlen := congrArg List.length h4
          simp only [List.length_append, List.length_cons, List.length_nil] at hlen
          have : zz.length = 0 := by omega
          exact hzz (List.length_eq_zero.1 this)

/-- A template whose scan finds the one placeholder `n` holds the text of that
placeholder at one place only. -/
theorem replaceFrom_single (pre n post x : Str)
    (hscan : scanPlaceHolders (pre ++ placeHolder n ++ post).length (pre ++ placeHolder n ++ post)
      = [n]) :
    replaceFrom (placeHolder n) x 0 (pre ++ placeHolder n ++ post) = pre ++ x ++ post := by
  have hP : placeHolder n = ['{', '{'] ++ n ++ ['}', '}'] := rfl
  have hlen : (pre ++ placeHolder n ++ post).length
      = (pre.length + n.length + post.length + 2) + 1 + 1 := by
    simp [placeHolder]; omega
  rw [hlen] at hscan
  generalize ht : pre ++ placeHolder n ++ post = t at hscan
  generalize hk1 : pre.length + n.length + post.length + 2 + 1 = k1 at hscan
  simp only [scanPlaceHolders] at hscan
  cases h1 : cutAt ['{', '{'] t with
  | none => rw [h1] at hscan; simp at hscan
  | some ar =>
    obtain ⟨a, r1⟩ := ar
    rw [h1] at hscan
    cases h2 : cutAt ['}', '}'] r1 with
    | none => simp [h2] at hscan
    | some nr =>
      obtain ⟨name, r2⟩ := nr
      simp only [h2, List.cons.injEq] at hscan
      obtain ⟨hname, hrest⟩ := hscan
      subst hname
      subst hk1
      have e1 := cutAt_some_eq _ t a r1 h1
      have e2 := cutAt_some_eq _ r1 name r2 h2
      have f1 := cutAt_some_first _ t a r1 h1
      have f2 := cutAt_some_first _ r1 name r2 h2
      have f3 := scanPlaceHolders_nil_no_occurrence _ r2 hrest
      have hlazy : ∀ a2 b2 : Str, name ++ ['}', '}'] = a2 ++ ['}', '}'] ++ b2 →
          name.length ≤ a2.length := by
        intro a2 b2 hab
        apply f2 a2 (b2 ++ r2)
        rw [e2, hab]; simp
      have et : t = a ++ placeHolder name ++ r2 := by
        rw [e1, e2, hP]; simp
      have hle : a.length ≤ pre.length := by
        apply f1 pre (name ++ ['}', '}'] ++ post)
        rw [← ht, hP]; simp
      have h3 : a ++ (placeHolder name ++ r2) = pre ++ (placeHolder name ++ post) := by
        rw [← List.append_assoc, ← List.append_assoc, ← et, ht]
      obtain ⟨u, hu, hu2⟩ := append_eq_append_left _ _ _ _ h3 hle
      have hunil : u = [] := by
        by_contra hune
        by_cases hcase : (placeHolder name).length ≤ u.length
        · obtain ⟨z, hz, hz2⟩ := append_eq_append_left _ _ _ _ hu2 hcase
          exact f3 name ⟨z, post, by rw [hz2]; simp⟩
        · obtain ⟨z, hz, hz2⟩ := append_eq_append_left _ _ _ _ hu2.symm (by omega)
          have hzne : z ≠ [] := by
            intro hz0
            subst hz0
            apply hcase
            rw [hz]; simp
          have hz3 : (placeHolder name).length ≤ (placeHolder name ++ post).length := by simp
          have hzl : z.length ≤ (placeHolder name).length := by
            rw [hz]; simp
          obtain ⟨zz, hzz, _⟩ := append_eq_append_left _ _ _ _ hz2.symm hzl
          have hzzne : zz ≠ [] := by
            intro hz0
            subst hz0
            have hl := congrArg List.length hz
            have hl2 := congrArg List.length hzz
            simp only [List.length_append, List.length_nil] at hl hl2
            have : u.length = 0 := by omega
            exact hune (List.length_eq_zero.1 this)
          exact placeHolder_no_border name z u zz hz hzz hzne hzzne hlazy
      subst hunil
      simp only [List.append_nil] at hu
      subst hu
      simp only [List.nil_append, List.append_cancel_left_eq] at hu2
      subst hu2
      rw [← ht]
      rw [replaceFrom_first _ _ (placeHolder_ne_nil name) _ _
        (by
          intro a2 b2 hab
          apply f1 a2 (name ++ ['}', '}'] ++ b2)
          rw [← ht, hab, hP]; simp),
        replaceFrom_none _ _ _ (fun x y hxy => f3 name ⟨x, y, hxy.symm⟩)]

theorem titleFrom_of_word (U : UnicodeTables) (s : Str) :
    ∀ prev, isSeparator U prev = false → (∀ c ∈ s, isSeparator U c = false) →
      titleFrom U prev s = s := by
  induction s with
  | nil => intro _ _ _; rfl
  | cons d ds ih =>
    intro prev hprev h
    have hd := h d (List.mem_cons_self _ _)
    simp only [titleFrom, hprev, Bool.false_eq_true, if_false]
    rw [ih d hd (fun c hc => h c (List.mem_cons_of_mem _ hc))]

theorem titleFrom_word (U : UnicodeTables) (s : Str) :
    ∀ prev, isSeparator U prev = false → (∀ c ∈ titleFrom U prev s, isSeparator U c = false) →
      titleFrom U prev s = s := by
  induction s with
  | nil => intro _ _ _; rfl
  | cons d ds ih =>
    intro prev hprev h
    simp only [titleFrom, hprev, Bool.false_eq_true, if_false] at h ⊢
    have hd := h d (List.mem_cons_self _ _)
    rw [ih d hd (fun c hc => h c (List.mem_cons_of_mem _ hc))]

theorem isSeparator_of_ToTitle (U : UnicodeTables) (c : Char)
    (h : isSeparator U (ToTitle U c) = false) : isSeparator U c = false := by
  by_contra hc
  have hsep : isSeparator U c = true := by simpa using hc
  have hfix : ToTitle U c = c := by
    unfold ToTitle
    unfold isSeparator at hsep
    by_cases ha : c.toNat ≤ 0x7F
    · simp only [ha, if_true] at hsep ⊢
      by_cases hl : 97 ≤ c.toNat ∧ c.toNat ≤ 122
      · simp [hl] at hsep
      · simp [hl]
    · simp only [ha, if_false] at hsep ⊢
      by_cases hld : (U.isLetter c || U.isDigit c) = true
      · simp [hld] at hsep
      · simp only [hld, Bool.false_eq_true, if_false] at hsep
        exact U.title_of_space c (by omega) hsep
  rw [hfix] at h
  rw [h] at hsep
  exact absurd hsep (by simp)

theorem isSeparator_blank (U : UnicodeTables) : isSeparator U ' ' = true := rfl

theorem Title_eq_capitalize (U : UnicodeTables) (n : Str)
    (h : ∀ c ∈ capitalize U n, isSeparator U c = false) : Title U n = capitalize U n := by
  cases n with
  | nil => rfl
  | cons c cs =>
    simp only [capitalize, List.mem_cons, forall_eq_or_imp] at h
    simp only [Title, titleFrom, isSeparator_blank, if_true, capitalize]
    rw [titleFrom_of_word U cs c (isSeparator_of_ToTitle U c h.1) h.2]

theorem Title_word_eq_capitalize (U : UnicodeTables) (n : Str)
    (h : ∀ c ∈ Title U n, isSeparator U c = false) : Title U n = capitalize U n := by
  cases n with
  | nil => rfl
  | cons c cs =>
    simp only [Title, titleFrom, isSeparator_blank, if_true, List.mem_cons,
      forall_eq_or_imp] at h
    simp only [Title, titleFrom, isSeparator_blank, if_true, capitalize]
    rw [titleFrom_word U cs c (isSeparator_of_ToTitle U c h.1) h.2]

theorem identifierNames_mem (U : UnicodeTables) (obj : Obj) (h : identifierNames U obj = true)
    (f : Field) (hf : f ∈ obj) : ∀ c ∈ f.name, isSeparator U c = false := by
  simp only [identifierNames, List.all_eq_true] at h
  intro c hc
  have := h f hf c hc
  simpa using this

theorem GetField_some_name (obj : Obj) (name : Str) (v : Value)
    (h : GetField obj name = some (some v)) : ∃ f ∈ obj, f.name = name := by
  unfold GetField at h
  cases hfind : obj.find? (fun f => f.name = name) with
  | none => simp [hfind] at h
  | some f =>
    refine ⟨f, List.mem_of_find?_eq_some hfind, ?_⟩
    have := List.find?_some hfind
    simpa using this

theorem GetField_none_of_no_name (obj : Obj) (name : Str) (h : ∀ f ∈ obj, f.name ≠ name) :
    GetField obj name = some none := by
  unfold GetField
  cases hfind : obj.find? (fun f => f.name = name) with
  | none => rfl
  | some f =>
    exfalso
    have := List.find?_some hfind
    exact h f (List.mem_of_find?_eq_some hfind) (by simpa using this)

theorem GetField_Title_of_capitalize (U : UnicodeTables) (obj : Obj) (n : Str) (v : Value)
    (hobj : identifierNames U obj = true) (h : GetField obj (capitalize U n) = some (some v)) :
    GetField obj (Title U n) = some (some v) := by
  obtain ⟨f, hf, hname⟩ := GetField_some_name obj _ v h
  have hw := identifierNames_mem U obj hobj f hf
  rw [hname] at hw
  rw [Title_eq_capitalize U n hw]
  exact h

theorem GetField_Title_missing (U : UnicodeTables) (obj : Obj) (n : Str)
    (hobj : identifierNames U obj = true) (h : GetField obj (capitalize U n) = some none) :
    GetField obj (Title U n) = some none := by
  apply GetField_none_of_no_name
  intro f hf hname
  have hw := identifierNames_mem U obj hobj f hf
  rw [hname] at hw
  have heq := Title_word_eq_capitalize U n hw
  rw [heq] at hname
  unfold GetField at h
  cases hfind : obj.find? (fun g => g.name = capitalize U n) with
  | none =>
    have := List.find?_eq_none.1 hfind f hf
    simp [hname] at this
  | some g =>
    rw [hfind] at h
    simp only at h
    split at h <;> simp at h

theorem replacePlaceHolders_append (U : UnicodeTables) (error : Obj) (ns1 ns2 : List Str) :
    ∀ m : Str, replacePlaceHolders U error (ns1 ++ ns2) m
      = (replacePlaceHolders U error ns1 m).bind (fun m1 => replacePlaceHolders U error ns2 m1) := by
  induction ns1 with
  | nil => intro m; rfl
  | cons n ns1 ih =>
    intro m
    simp only [List.cons_append, replacePlaceHolders]
    cases GetField error (Title U n) with
    | none => rfl
    | some value => exact ih _

/-- The interpolation of a template whose only placeholder is `n`: the text of
the field named by `strings.Title` of `n` takes the place of the placeholder. -/
theorem getReplacedPlaceholderMessage_one (U : UnicodeTables) (error : Obj) (pre n post : Str)
    (value : Option Value)
    (hscan : GetPlaceHoldersInString (pre ++ placeHolder n ++ post) placeHolderRegex = [n])
    (hfield : GetField error (Title U n) = some value) :
    getReplacedPlaceholderMessage U error (pre ++ placeHolder n ++ post)
      = some (pre ++ Sprint value ++ post) := by
  unfold getReplacedPlaceholderMessage
  rw [hscan]
  simp only [replacePlaceHolders, hfield]
  rw [ReplaceAll_placeHolder, replaceFrom_single pre n post _ hscan]

/-- C6, as stated, fails: the struct with the one field `_x`, of value `v`, has a
field named by capitalising the first letter of `_x` (the underscore has no
capital), but the field is unexported, so for the template `a {{_x}}` the read
of the field by reflection panics and no text `a v` is returned. -/
theorem getReplacedPlaceholderMessage_single_counterexample :
    identifierNames asciiTables [⟨"_x".toList, false, Value.string "v".toList⟩] = true
      ∧ GetPlaceHoldersInString ("a ".toList ++ placeHolder "_x".toList ++ []) placeHolderRegex
        = ["_x".toList]
      ∧ capitalize asciiTables "_x".toList = "_x".toList
      ∧ (∃ f ∈ ([⟨"_x".toList, false, Value.string "v".toList⟩] : Obj),
          f.name = capitalize asciiTables "_x".toList ∧ f.value = Value.string "v".toList)
      ∧ getReplacedPlaceholderMessage asciiTables
          [⟨"_x".toList, false, Value.string "v".toList⟩]
          ("a ".toList ++ placeHolder "_x".toList ++ []) = none
      ∧ getReplacedPlaceholderMessage asciiTables
          [⟨"_x".toList, false, Value.string "v".toList⟩]
          ("a ".toList ++ placeHolder "_x".toList ++ [])
        ≠ some ("a ".toList ++ Sprint (some (Value.string "v".toList)) ++ []) := by
  refine ⟨by decide, by decide, by decide, ?_, by decide, by decide⟩
  exact ⟨⟨"_x".toList, false, Value.string "v".toList⟩, List.mem_singleton.2 rfl, by decide,
    rfl⟩

/-- C6, amended: for every template made of a text, the placeholder of `n` and a
text, in which the scan finds that placeholder only, and every context object
(a Go struct, whose field names are identifiers) that has an exported field
named by capitalising the first letter of `n`, with value `v` (the read of that
field by reflection gives `v`), `getReplacedPlaceholderMessage` returns the
template with the `%v` text of `v` in the place of the placeholder; so with an
exported field `Name` of value `Akamai` the template `Hello {{name}}` gives
`Hello Akamai`. -/
theorem getReplacedPlaceholderMessage_single (U : UnicodeTables) (error : Obj)
    (pre n post : Str) (v : Value)
    (hobj : identifierNames U error = true)
    (hscan : GetPlaceHoldersInString (pre ++ placeHolder n ++ post) placeHolderRegex = [n])
    (hfield : GetField error (capitalize U n) = some (some v)) :
    getReplacedPlaceholderMessage U error (pre ++ placeHolder n ++ post)
        = some (pre ++ Sprint (some v) ++ post)
      ∧ (GetField error "Name".toList = some (some (Value.string "Akamai".toList)) →
        getReplacedPlaceholderMessage U error "Hello \x7b\x7bname\x7d\x7d".toList
          = some "Hello Akamai".toList) := by
  constructor
  · exact getReplacedPlaceholderMessage_one U error pre n post (some v) hscan
      (GetField_Title_of_capitalize U error n v hobj hfield)
  · intro hname
    exact getReplacedPlaceholderMessage_one U error "Hello ".toList "name".toList [] _ (by decide)
      (GetField_Title_of_capitalize U error "name".toList _ hobj hname)

theorem getReplacedPlaceholderMessage_single_witness :
    identifierNames asciiTables [⟨"Name".toList, true, Value.string "Akamai".toList⟩] = true
      ∧ GetPlaceHoldersInString ("Hello ".toList ++ placeHolder "name".toList ++ "!".toList)
          placeHolderRegex = ["name".toList]
      ∧ getReplacedPlaceholderMessage asciiTables
          [⟨"Name".toList, true, Value.string "Akamai".toList⟩]
          ("Hello ".toList ++ placeHolder "name".toList ++ "!".toList)
        = some ("Hello ".toList ++ Sprint (some (Value.string "Akamai".toList)) ++ "!".toList) :=
  ⟨by decide, by decide,
    (getReplacedPlaceholderMessage_single asciiTables
      [⟨"Name".toList, true, Value.string "Akamai".toList⟩] "Hello ".toList "name".toList
      "!".toList (Value.string "Akamai".toList) (by decide) (by decide) (by decide)).1⟩

/-- C7, as stated, fails: for the template `Hello {{name}}` and a context object
without fields the result is `Hello <nil>`, not `Hello ` with an empty text in
the place of the placeholder. -/
theorem getReplacedPlaceholderMessage_missing_counterexample :
    GetField [] (capitalize asciiTables "name".toList) = some none
      ∧ getReplacedPlaceholderMessage asciiTables [] "Hello \x7b\x7bname\x7d\x7d".toList
        = some "Hello <nil>".toList
      ∧ getReplacedPlaceholderMessage asciiTables [] "Hello \x7b\x7bname\x7d\x7d".toList
        ≠ some (ReplaceAll "Hello \x7b\x7bname\x7d\x7d".toList (placeHolder "name".toList) []) := by
  decide

/-- C7, amended: for every template in which the scan finds a placeholder `n`
and every context object (a Go struct, whose field names are identifiers) with
no field named by capitalising `n`, the turn of the loop for `n` does not fail
and replaces every occurrence of the placeholder of `n` in the message by the
text `<nil>`; when `n` is the only placeholder of a template made of a text,
the placeholder and a text, the result is that template with `<nil>` in the
place of the placeholder. -/
theorem getReplacedPlaceholderMessage_missing (U : UnicodeTables) (error : Obj)
    (errorMessage n : Str) (ns1 ns2 : List Str)
    (hobj : identifierNames U error = true)
    (hscan : GetPlaceHoldersInString errorMessage placeHolderRegex = ns1 ++ n :: ns2)
    (hmiss : GetField error (capitalize U n) = some none) :
    getReplacedPlaceholderMessage U error errorMessage
        = (replacePlaceHolders U error ns1 errorMessage).bind
            (fun m => replacePlaceHolders U error ns2
              (ReplaceAll m (placeHolder n) "<nil>".toList))
      ∧ (∀ pre post : Str, errorMessage = pre ++ placeHolder n ++ post → ns1 = [] → ns2 = [] →
          getReplacedPlaceholderMessage U error errorMessage
            = some (pre ++ "<nil>".toList ++ post)) := by
  have hT := GetField_Title_missing U error n hobj hmiss
  constructor
  · unfold getReplacedPlaceholderMessage
    rw [hscan, replacePlaceHolders_append]
    simp only [replacePlaceHolders, hT]
    rfl
  · intro pre post ht h1 h2
    subst h1 h2 ht
    exact getReplacedPlaceholderMessage_one U error pre n post none hscan hT

theorem getReplacedPlaceholderMessage_missing_witness :
    identifierNames asciiTables [] = true
      ∧ GetPlaceHoldersInString "Hello \x7b\x7bname\x7d\x7d".toList placeHolderRegex
          = [] ++ "name".toList :: []
      ∧ GetField [] (capitalize asciiTables "name".toList) = some none
      ∧ getReplacedPlaceholderMessage asciiTables [] "Hello \x7b\x7bname\x7d\x7d".toList
          = some "Hello <nil>".toList :=
  ⟨by decide, by decide, by decide,
    (getReplacedPlaceholderMessage_missing asciiTables [] "Hello \x7b\x7bname\x7d\x7d".toList
      "name".toList [] [] (by decide) (by decide) (by decide)).2 "Hello ".toList [] (by decide)
      rfl rfl⟩

/-! ## The API error classifier -/

theorem splitBy_append_sep (p : Char → Bool) (b : Str) (c : Char) (hc : p c = true) :
    ∀ a : Str, splitBy p (a ++ c :: b) = splitBy p a ++ splitBy p b := by
  intro a
  induction a with
  | nil => simp [splitBy, hc]
  | cons d a ih =>
    simp only [List.cons_append, splitBy]
    by_cases hd : p d = true
    · simp [hd, ih]
    · simp only [hd, Bool.false_eq_true, if_false]
      have ih2 : splitBy p (a.append (c :: b)) = splitBy p a ++ splitBy p b := ih
      rw [ih2]
      cases hs : splitBy p a with
      | nil => exact absurd hs (splitBy_ne_nil p a)
      | cons w ws => simp

theorem Fields_append_blank (a b : Str) : Fields (a ++ ' ' :: b) = Fields a ++ Fields b := by
  unfold Fields
  rw [splitBy_append_sep isSpace b ' ' (by decide) a, List.filter_append]

theorem hyphenWord_append_blank (a b : Str) :
    hyphenWord (a ++ ' ' :: b) = (hyphenWord a || hyphenWord b) := by
  unfold hyphenWord
  rw [Fields_append_blank, List.any_append]

theorem hyphenWord_of_key (U : UnicodeTables) (p r : Str)
    (h : getJsonPathForCommand U p = some r) : hyphenWord r = false := by
  obtain ⟨hc, hp⟩ := getJsonPathForCommand_plain U p r h
  have ha : 'a' ∈ r := Contains_mem r _ hc 'a' (by decide)
  have hne : r ≠ [] := by intro he; rw [he] at ha; simp at ha
  unfold hyphenWord
  rw [Fields_of_plain r hne hp]
  simp only [List.any_cons, List.any_nil, Bool.or_false, onlyHyphens, List.all_eq_false]
  exact ⟨'a', ha, by decide⟩

theorem getJsonPathForCommand_isSome (U : UnicodeTables) (s : Str) (h : hyphenWord s = false) :
    ∃ r, getJsonPathForCommand U s = some r := by
  unfold hyphenWord at h
  rw [getJsonPathForCommand_eq]
  simp only [h, Bool.false_eq_true, if_false]
  split
  · exact ⟨_, rfl⟩
  · exact ⟨_, rfl⟩

theorem getJsonPathForCommand_none (U : UnicodeTables) (s : Str) (h : hyphenWord s = true) :
    getJsonPathForCommand U s = none := by
  unfold hyphenWord at h
  rw [getJsonPathForCommand_eq]
  simp [h]

theorem GetField_exported (obj : Obj) (name : Str) (h : ∀ f ∈ obj, f.exported = true) :
    ∃ v, GetField obj name = some v := by
  unfold GetField
  cases hfind : obj.find? (fun f => f.name = name) with
  | none => exact ⟨none, rfl⟩
  | some f =>
    have := h f (List.mem_of_find?_eq_some hfind)
    exact ⟨some f.value, by simp [this]⟩

theorem replacePlaceHolders_isSome (U : UnicodeTables) (obj : Obj)
    (h : ∀ f ∈ obj, f.exported = true) :
    ∀ (names : List Str) (m : Str), ∃ r, replacePlaceHolders U obj names m = some r := by
  intro names
  induction names with
  | nil => intro m; exact ⟨m, rfl⟩
  | cons n names ih =>
    intro m
    obtain ⟨v, hv⟩ := GetField_exported obj (Title U n) h
    simp only [replacePlaceHolders, hv]
    exact ih _

theorem getReplacedPlaceholderMessage_subError (U : UnicodeTables) (subError : ApiSubError)
    (errorMessage : Str) :
    ∃ r, getReplacedPlaceholderMessage U subError.toObj errorMessage = some r := by
  unfold getReplacedPlaceholderMessage
  apply replacePlaceHolders_isSome
  intro f hf
  simp only [ApiSubError.toObj, List.mem_cons, List.mem_singleton, List.not_mem_nil,
    or_false] at hf
  rcases hf with hf | hf | hf | hf | hf <;> rw [hf]

theorem getReplacedPlaceholderMessage_apiError (U : UnicodeTables) (apiError : ApiError)
    (errorMessage : Str) :
    ∃ r, getReplacedPlaceholderMessage U apiError.toObj errorMessage = some r := by
  unfold getReplacedPlaceholderMessage
  apply replacePlaceHolders_isSome
  intro f hf
  simp only [ApiError.toObj, List.mem_cons, List.mem_singleton, List.not_mem_nil,
    or_false] at hf
  rcases hf with hf | hf | hf | hf | hf | hf | hf | hf <;> rw [hf]

/-- The message of a sub-error is the interpolation, against the sub-error, of
the message resolved for one key. -/
theorem subErrorMessage_form (E : Env) (jsonPathForCommand parentErrorKey subResource operation : Str)
    (subError : ApiSubError)
    (h : hyphenWord (Join [jsonPathForCommand, subResource, operation, parentErrorKey,
      getErrorJsonKeyForErrorType E.tables subError.Typ] [' ']) = false) :
    ∃ key m, subErrorMessage E jsonPathForCommand parentErrorKey subResource operation subError
        = some m
      ∧ getReplacedPlaceholderMessage E.tables subError.toObj
          (getMessageForJsonPathOrFallback E key) = some m := by
  obtain ⟨errorPath, hpath⟩ := getJsonPathForCommand_isSome E.tables _ h
  unfold subErrorMessage
  simp only [hpath]
  split
  · obtain ⟨r, hr⟩ := getReplacedPlaceholderMessage_subError E.tables subError
      (getMessageForJsonPathOrFallback E (errorPath ++ jsonPathSeparator ++ subError.RequestField
        ++ Title E.tables (getErrorJsonKeyForErrorType E.tables subError.Typ)))
    exact ⟨_, r, hr, hr⟩
  · split
    · obtain ⟨r, hr⟩ := getReplacedPlaceholderMessage_subError E.tables subError
        (getMessageForJsonPathOrFallback E (errorPath ++ jsonPathSeparator
          ++ "requirementId".toList ++ "TestSuiteId".toList
          ++ Title E.tables (getErrorJsonKeyForErrorType E.tables subError.Typ)))
      exact ⟨_, r, hr, hr⟩
    · split
      · obtain ⟨r, hr⟩ := getReplacedPlaceholderMessage_subError E.tables subError
          (getMessageForJsonPathOrFallback E (errorPath ++ jsonPathSeparator
            ++ "configVersionId".toList ++ "TestSuiteId".toList
            ++ Title E.tables (getErrorJsonKeyForErrorType E.tables subError.Typ)))
        exact ⟨_, r, hr, hr⟩
      · split
        · obtain ⟨r, hr⟩ := getReplacedPlaceholderMessage_subError E.tables subError
            (getMessageForJsonPathOrFallback E (errorPath ++ jsonPathSeparator
              ++ "testSuiteId".toList ++ "TestCaseId".toList
              ++ Title E.tables (getErrorJsonKeyForErrorType E.tables subError.Typ)))
          exact ⟨_, r, hr, hr⟩
        · obtain ⟨r, hr⟩ := getReplacedPlaceholderMessage_subError E.tables subError
            (getMessageForJsonPathOrFallback E errorPath)
          exact ⟨_, r, hr, hr⟩

theorem collectFrom_all_some {α β : Type} (g : α → Option β) (xs : List α)
    (h : ∀ x ∈ xs, ∃ y, g x = some y) :
    ∀ i, ∃ ys, collectFrom (fun _ x => g x) i xs = some ys ∧ ys.map some = xs.map g := by
  induction xs with
  | nil => intro i; exact ⟨[], rfl, rfl⟩
  | cons x xs ih =>
    intro i
    obtain ⟨y, hy⟩ := h x (List.mem_cons_self _ _)
    obtain ⟨ys, hys, hmap⟩ := ih (fun z hz => h z (List.mem_cons_of_mem _ hz)) (i + 1)
    refine ⟨y :: ys, ?_, ?_⟩
    · simp only [collectFrom, hy, hys]
    · simp [hy, hmap]

theorem GetApiSubErrorMessagesForCommand_eq (E : Env) (cmd : Command)
    (apiSubError : List ApiSubError) (parentErrorKey subResource operation jsonPathForCommand : Str)
    (hcmd : getJsonPathForCommand E.tables cmd.CommandPath = some jsonPathForCommand) :
    GetApiSubErrorMessagesForCommand E cmd apiSubError parentErrorKey subResource operation
      = collectFrom (fun _ subError =>
          subErrorMessage E jsonPathForCommand parentErrorKey subResource operation subError)
        0 apiSubError := by
  unfold GetApiSubErrorMessagesForCommand
  simp only [hcmd]
  rw [rangeStore_eq _ _ _ _ (Nat.zero_le _)]
  simp only [List.length_replicate, Nat.zero_add, Nat.le_refl, if_true, List.take_zero,
    List.nil_append, List.drop_replicate, Nat.sub_self, List.replicate_zero, List.append_nil]
  cases collectFrom (fun _ subError =>
      subErrorMessage E jsonPathForCommand parentErrorKey subResource operation subError)
    0 apiSubError with
  | none => rfl
  | some ys => simp

/-- The edge path is taken exactly when the gate is met, for a command whose path
has no word made of hyphens only. -/
theorem GetApiErrorMessagesForCommand_gate (E : Env) (cmd : Command) (apiError : ApiError)
    (subResource operation responseCode : Str) (hcmd : hyphenWord cmd.CommandPath = false) :
    (∃ printed code, GetApiErrorMessagesForCommand E cmd apiError subResource operation
        responseCode = Outcome.exited printed code) ↔ edgeGate apiError responseCode := by
  obtain ⟨jp, hjp⟩ := getJsonPathForCommand_isSome E.tables _ hcmd
  unfold GetApiErrorMessagesForCommand edgeGate Empty
  simp only [hjp]
  constructor
  · rintro ⟨printed, code, h⟩
    by_contra hg
    rw [if_neg hg] at h
    split at h
    · split at h <;> exact absurd h (by simp)
    · split at h
      · exact absurd h (by simp)
      · split at h <;> exact absurd h (by simp)
  · intro hg
    rw [if_pos hg]
    exact ⟨_, _, rfl⟩

/-- C8 fails on the code: with the gate not met (all of client IP, server IP and
request id empty, response code `500`), no sub-errors and the error type `-`, the
call neither takes the edge path nor returns a list of messages; it dies in the
panic of `getJsonPathForCommand` on the word `-`. -/
theorem GetApiErrorMessagesForCommand_panic :
    ¬ edgeGate ⟨"-".toList, 500, [], [], [], [], [], []⟩ "500".toList
      ∧ hyphenWord "akamai test-center test-suite view".toList = false
      ∧ getErrorJsonKeyForErrorType sampleEnv.tables "-".toList = "-".toList
      ∧ getJsonPathForCommand sampleEnv.tables
          "akamai.testCenter.testSuite.view testSuite get -".toList = none
      ∧ GetApiErrorMessagesForCommand sampleEnv ⟨"akamai test-center test-suite view".toList⟩
          ⟨"-".toList, 500, [], [], [], [], [], []⟩ "testSuite".toList "get".toList "500".toList
        = Outcome.panicked := by
  decide

/-- C9, as stated, fails: with client IP, server IP and request id non-empty and
status 404, the response code `401` and a non-empty error code make the call
print three messages, the `notAuthorized` one between the other two. -/
theorem GetApiErrorMessagesForCommand_notFound_counterexample :
    GetApiErrorMessagesForCommand sampleEnv ⟨"akamai test-center test-suite view".toList⟩
        ⟨"notFound".toList, 404, [], "E1".toList, "1.1.1.1".toList, "2.2.2.2".toList,
          "abc".toList, []⟩
        "testSuite".toList "get".toList "401".toList
      = Outcome.exited ["Resource not found\n".toList, "Not authorized\n".toList,
          "Initialize your edgerc\n".toList] (sampleEnv.GetHttpExitCode "401".toList)
      ∧ GetApiErrorMessagesForCommand sampleEnv ⟨"akamai test-center test-suite view".toList⟩
        ⟨"notFound".toList, 404, [], "E1".toList, "1.1.1.1".toList, "2.2.2.2".toList,
          "abc".toList, []⟩
        "testSuite".toList "get".toList "401".toList
      ≠ Outcome.exited [GetEdgeGridErrorMessage sampleEnv "resourceNotFound".toList ++ ['\n'],
          GetGlobalErrorMessage sampleEnv "initEdgeRc".toList ++ ['\n']]
          (sampleEnv.GetHttpExitCode "401".toList) := by
  decide

/-- C9, amended: for every command whose path has no word made of hyphens only
and every API error with non-empty client IP, server IP and request id and
status 404, whatever the response code and the other fields, the call prints,
as its complete output and in this order, the edge-grid `resourceNotFound`
message, then, only when the response code is `401` and the error code is
non-empty, the edge-grid `notAuthorized` message, then the global `initEdgeRc`
message, each followed by a line feed; it then leaves with the exit code
`GetHttpExitCode(responseCode)` and returns no list of messages. -/
theorem GetApiErrorMessagesForCommand_notFound (E : Env) (cmd : Command) (apiError : ApiError)
    (subResource operation responseCode : Str)
    (hcmd : hyphenWord cmd.CommandPath = false)
    (hip : apiError.ClientIp ≠ [] ∧ apiError.ServerIp ≠ [] ∧ apiError.RequestId ≠ [])
    (hstatus : apiError.Status = 404) :
    GetApiErrorMessagesForCommand E cmd apiError subResource operation responseCode
      = Outcome.exited
          ([GetEdgeGridErrorMessage E "resourceNotFound".toList ++ ['\n']]
            ++ (if responseCode = "401".toList ∧ apiError.Code ≠ [] then
                  [GetEdgeGridErrorMessage E "notAuthorized".toList ++ ['\n']]
                else [])
            ++ [GetGlobalErrorMessage E "initEdgeRc".toList ++ ['\n']])
          (E.GetHttpExitCode responseCode) := by
  obtain ⟨jp, hjp⟩ := getJsonPathForCommand_isSome E.tables _ hcmd
  unfold GetApiErrorMessagesForCommand Empty
  simp only [hjp]
  rw [if_pos (Or.inl hip)]
  simp only [hstatus]
  have h0 : ¬ ((404 : Int) = 400 ∨ (404 : Int) = 401) := by decide
  simp only [h0, false_and, if_false, if_true, List.nil_append]
  by_cases h2 : responseCode = "401".toList ∧ apiError.Code ≠ []
  · rw [if_pos h2, if_pos h2]
  · rw [if_neg h2, if_neg h2]
    rfl

theorem GetApiErrorMessagesForCommand_notFound_witness :
    hyphenWord "akamai test-center test-suite view".toList = false
      ∧ GetApiErrorMessagesForCommand sampleEnv ⟨"akamai test-center test-suite view".toList⟩
          ⟨"notFound".toList, 404, [], [], "1.1.1.1".toList, "2.2.2.2".toList, "abc".toList, []⟩
          "testSuite".toList "get".toList "404".toList
        = Outcome.exited
          ([GetEdgeGridErrorMessage sampleEnv "resourceNotFound".toList ++ ['\n']]
            ++ (if "404".toList = "401".toList ∧ ([] : Str) ≠ [] then
                  [GetEdgeGridErrorMessage sampleEnv "notAuthorized".toList ++ ['\n']]
                else [])
            ++ [GetGlobalErrorMessage sampleEnv "initEdgeRc".toList ++ ['\n']])
          (sampleEnv.GetHttpExitCode "404".toList) :=
  ⟨by decide,
    GetApiErrorMessagesForCommand_notFound sampleEnv ⟨"akamai test-center test-suite view".toList⟩
      ⟨"notFound".toList, 404, [], [], "1.1.1.1".toList, "2.2.2.2".toList, "abc".toList, []⟩
      "testSuite".toList "get".toList "404".toList (by decide) (by decide) (by decide)⟩

/-- C10, as stated, fails: with client IP, server IP and request id empty, a
status other than 401 and two sub-errors of type `resourceNotFound`, the
response code `401` together with a non-empty error code sends the call down
the edge path: it prints and exits, and returns no messages. -/
theorem GetApiErrorMessagesForCommand_subErrors_counterexample :
    GetApiErrorMessagesForCommand sampleEnv ⟨"akamai test-center test-suite view".toList⟩
        ⟨"notFound".toList, 500, [], "E1".toList, [], [], [],
          [⟨"resourceNotFound".toList, "suite".toList, 0, 0, 7⟩,
           ⟨"resourceNotFound".toList, "case".toList, 0, 0, 8⟩]⟩
        "testSuite".toList "get".toList "401".toList
      = Outcome.exited ["Not authorized\n".toList, "Initialize your edgerc\n".toList]
          (sampleEnv.GetHttpExitCode "401".toList) := by
  decide

/-- C10, amended: for every command, sub-resource, operation and API error whose
key segments have no word made of hyphens only, with client IP, server IP and
request id empty, a status other than 401, a non-empty list of sub-errors, and
a response code and error code that are not `401` with a non-empty code, the
call returns to the caller a list with exactly one message per sub-error, in
the order of the sub-errors, the message of a sub-error being the message
resolved for it and interpolated against that sub-error. -/
theorem GetApiErrorMessagesForCommand_subErrors (E : Env) (cmd : Command) (apiError : ApiError)
    (subResource operation responseCode : Str)
    (hcmd : hyphenWord cmd.CommandPath = false)
    (hsub : hyphenWord subResource = false)
    (hop : hyphenWord operation = false)
    (htype : hyphenWord (getErrorJsonKeyForErrorType E.tables apiError.Typ) = false)
    (hsubs : ∀ subError ∈ apiError.Errors,
      hyphenWord (getErrorJsonKeyForErrorType E.tables subError.Typ) = false)
    (hip : apiError.ClientIp = [] ∧ apiError.ServerIp = [] ∧ apiError.RequestId = [])
    (_hstatus : apiError.Status ≠ 401)
    (hcode : ¬ (responseCode = "401".toList ∧ apiError.Code ≠ []))
    (hne : apiError.Errors ≠ []) :
    ∃ jsonPathForCommand errorMessages,
      getJsonPathForCommand E.tables cmd.CommandPath = some jsonPathForCommand
        ∧ GetApiErrorMessagesForCommand E cmd apiError subResource operation responseCode
          = Outcome.returned errorMessages
        ∧ errorMessages.length = apiError.Errors.length
        ∧ errorMessages.map some
          = apiError.Errors.map (subErrorMessage E jsonPathForCommand
              (getErrorJsonKeyForErrorType E.tables apiError.Typ) subResource operation)
        ∧ ∀ subError ∈ apiError.Errors, ∃ key m,
            subErrorMessage E jsonPathForCommand
                (getErrorJsonKeyForErrorType E.tables apiError.Typ) subResource operation subError
              = some m
            ∧ getReplacedPlaceholderMessage E.tables subError.toObj
                (getMessageForJsonPathOrFallback E key) = some m := by
  obtain ⟨jp, hjp⟩ := getJsonPathForCommand_isSome E.tables _ hcmd
  have hkey := hyphenWord_of_key E.tables _ jp hjp
  have hword : ∀ subError ∈ apiError.Errors,
      hyphenWord (Join [jp, subResource, operation,
        getErrorJsonKeyForErrorType E.tables apiError.Typ,
        getErrorJsonKeyForErrorType E.tables subError.Typ] [' ']) = false := by
    intro subError hmem
    have : Join [jp, subResource, operation, getErrorJsonKeyForErrorType E.tables apiError.Typ,
        getErrorJsonKeyForErrorType E.tables subError.Typ] [' ']
        = jp ++ ' ' :: (subResource ++ ' ' :: (operation ++ ' '
          :: (getErrorJsonKeyForErrorType E.tables apiError.Typ ++ ' '
            :: getErrorJsonKeyForErrorType E.tables subError.Typ))) := by
      simp [Join, List.intercalate]
    rw [this]
    simp only [hyphenWord_append_blank, hkey, hsub, hop, htype, hsubs subError hmem,
      Bool.or_self]
  have hform := fun subError hmem =>
    subErrorMessage_form E jp (getErrorJsonKeyForErrorType E.tables apiError.Typ) subResource
      operation subError (hword subError hmem)
  obtain ⟨ys, hys, hmap⟩ := collectFrom_all_some
    (subErrorMessage E jp (getErrorJsonKeyForErrorType E.tables apiError.Typ) subResource
      operation) apiError.Errors
    (fun subError hmem => by
      obtain ⟨_, m, hm, _⟩ := hform subError hmem
      exact ⟨m, hm⟩) 0
  refine ⟨jp, ys, hjp, ?_, ?_, hmap, hform⟩
  · have hgate : ¬ ((apiError.ClientIp ≠ Empty ∧ apiError.ServerIp ≠ Empty
        ∧ apiError.RequestId ≠ Empty) ∨ (responseCode = "401".toList ∧ apiError.Code ≠ Empty)) := by
      unfold Empty
      rintro (h | h)
      · exact h.1 hip.1
      · exact hcode h
    have hlen : apiError.Errors.length ≠ 0 := by
      intro h0
      exact hne (List.length_eq_zero.1 h0)
    unfold GetApiErrorMessagesForCommand
    simp only [hjp]
    rw [if_neg hgate, if_pos hlen, GetApiSubErrorMessagesForCommand_eq E cmd _ _ _ _ jp hjp, hys]
  · have := congrArg List.length hmap
    simpa using this

theorem GetApiErrorMessagesForCommand_subErrors_witness :
    GetApiErrorMessagesForCommand sampleEnv ⟨"akamai test-center test-suite view".toList⟩
        ⟨"notFound".toList, 404, [], [], [], [], [],
          [⟨"resourceNotFound".toList, "suite".toList, 0, 0, 7⟩,
           ⟨"resourceNotFound".toList, "case".toList, 0, 0, 8⟩]⟩
        "testSuite".toList "get".toList "404".toList
      = Outcome.returned ["No suite with id 7".toList, "No case with id 8".toList]
      ∧ ∃ jsonPathForCommand errorMessages,
        getJsonPathForCommand sampleEnv.tables "akamai test-center test-suite view".toList
            = some jsonPathForCommand
          ∧ GetApiErrorMessagesForCommand sampleEnv
              ⟨"akamai test-center test-suite view".toList⟩
              ⟨"notFound".toList, 404, [], [], [], [], [],
                [⟨"resourceNotFound".toList, "suite".toList, 0, 0, 7⟩,
                 ⟨"resourceNotFound".toList, "case".toList, 0, 0, 8⟩]⟩
              "testSuite".toList "get".toList "404".toList
            = Outcome.returned errorMessages
          ∧ errorMessages.length = 2 :=
  ⟨by decide, by
    obtain ⟨jp, ms, h1, h2, h3, _⟩ := GetApiErrorMessagesForCommand_subErrors sampleEnv
      ⟨"akamai test-center test-suite view".toList⟩
      ⟨"notFound".toList, 404, [], [], [], [], [],
        [⟨"resourceNotFound".toList, "suite".toList, 0, 0, 7⟩,
         ⟨"resourceNotFound".toList, "case".toList, 0, 0, 8⟩]⟩
      "testSuite".toList "get".toList "404".toList
      (by decide) (by decide) (by decide) (by decide) (by decide) (by decide) (by decide)
      (by decide) (by decide)
    exact ⟨jp, ms, h1, h2, h3⟩⟩

/-! ## The choice of the key of a sub-error -/

/-- The message of a sub-error whose generic key is `errorPath` is the message
resolved for the key of the branch taken, interpolated against the sub-error. -/
theorem subErrorMessage_choice (E : Env)
    (jsonPathForCommand parentErrorKey subResource operation errorPath : Str)
    (subError : ApiSubError)
    (hpath : genericKey E jsonPathForCommand parentErrorKey subResource operation subError
      = some errorPath) :
    subErrorMessage E jsonPathForCommand parentErrorKey subResource operation subError
      = getReplacedPlaceholderMessage E.tables subError.toObj
          (getMessageForJsonPathOrFallback E
            (choiceKey E.tables errorPath subError
              (getErrorJsonKeyForErrorType E.tables subError.Typ)
              (keyChoice E errorPath subError))) := by
  unfold genericKey at hpath
  unfold subErrorMessage keyChoice
  simp only [hpath, choiceKey]
  by_cases h1 : (Contains "resourceNotFound,resourceInDeletedState".toList
      (getErrorJsonKeyForErrorType E.tables subError.Typ)
      && checkIfMessageExist E (errorPath ++ jsonPathSeparator ++ subError.RequestField
        ++ Title E.tables (getErrorJsonKeyForErrorType E.tables subError.Typ))) = true
  · simp only [h1, if_true]
  · simp only [h1, Bool.false_eq_true, if_false]
    by_cases ha : Contains "associationNotFound".toList
        (getErrorJsonKeyForErrorType E.tables subError.Typ) = true
    · simp only [ha, Bool.true_and, if_true]
      split
      · rfl
      · split
        · rfl
        · split
          · rfl
          · rfl
    · simp only [ha, Bool.false_and, Bool.false_eq_true, if_false]

theorem getMessageForJsonPathOrFallback_absent (E : Env) (jsonPath : Str)
    (h : checkIfMessageExist E jsonPath = false) :
    getMessageForJsonPathOrFallback E jsonPath = fallbackString E := by
  unfold checkIfMessageExist at h
  have hf : fallbackString E
      = (E.messageJson (rootCommandName ++ jsonPathSeparator ++ fallbackKey)).String := rfl
  rw [hf]
  simp [getMessageForJsonPathOrFallback, h]

theorem genericKey_isSome (E : Env) (jsonPathForCommand parentErrorKey subResource operation : Str)
    (subError : ApiSubError)
    (hkey : hyphenWord jsonPathForCommand = false) (hsub : hyphenWord subResource = false)
    (hop : hyphenWord operation = false) (hparent : hyphenWord parentErrorKey = false)
    (hown : hyphenWord (getErrorJsonKeyForErrorType E.tables subError.Typ) = false) :
    ∃ errorPath, genericKey E jsonPathForCommand parentErrorKey subResource operation subError
      = some errorPath := by
  unfold genericKey
  apply getJsonPathForCommand_isSome
  have : Join [jsonPathForCommand, subResource, operation, parentErrorKey,
      getErrorJsonKeyForErrorType E.tables subError.Typ] [' ']
      = jsonPathForCommand ++ ' ' :: (subResource ++ ' ' :: (operation ++ ' '
        :: (parentErrorKey ++ ' ' :: getErrorJsonKeyForErrorType E.tables subError.Typ))) := by
    simp [Join, List.intercalate]
  rw [this]
  simp only [hyphenWord_append_blank, hkey, hsub, hop, hparent, hown, Bool.or_self]

theorem errorKey_isSome (E : Env) (jsonPathForCommand parentErrorKey subResource operation : Str)
    (hkey : hyphenWord jsonPathForCommand = false) (hsub : hyphenWord subResource = false)
    (hop : hyphenWord operation = false) (hparent : hyphenWord parentErrorKey = false) :
    ∃ errorPath, errorKey E jsonPathForCommand parentErrorKey subResource operation
      = some errorPath := by
  unfold errorKey
  apply getJsonPathForCommand_isSome
  have : Join [jsonPathForCommand, subResource, operation, parentErrorKey] [' ']
      = jsonPathForCommand ++ ' ' :: (subResource ++ ' ' :: (operation ++ ' '
        :: parentErrorKey)) := by
    simp [Join, List.intercalate]
  rw [this]
  simp only [hyphenWord_append_blank, hkey, hsub, hop, hparent, Bool.or_self]

/-- The application path, written out: what the call does when the gate is not
met, for a command whose key is `jsonPathForCommand`. -/
theorem GetApiErrorMessagesForCommand_application (E : Env) (cmd : Command) (apiError : ApiError)
    (subResource operation responseCode jsonPathForCommand : Str)
    (hcmd : getJsonPathForCommand E.tables cmd.CommandPath = some jsonPathForCommand)
    (hgate : ¬ edgeGate apiError responseCode) :
    GetApiErrorMessagesForCommand E cmd apiError subResource operation responseCode
      = if apiError.Errors.length ≠ 0 then
          match collectFrom (fun _ subError => subErrorMessage E jsonPathForCommand
              (getErrorJsonKeyForErrorType E.tables apiError.Typ) subResource operation subError)
              0 apiError.Errors with
          | none => Outcome.panicked
          | some errorMessages => Outcome.returned errorMessages
        else
          match errorKey E jsonPathForCommand
              (getErrorJsonKeyForErrorType E.tables apiError.Typ) subResource operation with
          | none => Outcome.panicked
          | some errorPath =>
            match getReplacedPlaceholderMessage E.tables apiError.toObj
                (getMessageForJsonPathOrFallback E errorPath) with
            | none => Outcome.panicked
            | some message => Outcome.returned [message] := by
  have hg : ¬ ((apiError.ClientIp ≠ Empty ∧ apiError.ServerIp ≠ Empty
      ∧ apiError.RequestId ≠ Empty) ∨ (responseCode = "401".toList ∧ apiError.Code ≠ Empty)) :=
    hgate
  unfold GetApiErrorMessagesForCommand
  simp only [hcmd]
  rw [if_neg hg]
  by_cases hlen : apiError.Errors.length ≠ 0
  · rw [if_pos hlen, if_pos hlen,
      GetApiSubErrorMessagesForCommand_eq E cmd _ _ _ _ jsonPathForCommand hcmd]
  · rw [if_neg hlen, if_neg hlen]
    rfl

theorem collectFrom_some_map {α β : Type} (g : α → Option β) (xs : List α) :
    ∀ (i : Nat) (ys : List β), collectFrom (fun _ x => g x) i xs = some ys →
      ys.map some = xs.map g := by
  induction xs with
  | nil =>
    intro i ys h
    simp only [collectFrom, Option.some.injEq] at h
    subst h
    rfl
  | cons x xs ih =>
    intro i ys h
    simp only [collectFrom] at h
    cases hx : g x with
    | none => simp [hx] at h
    | some y =>
      cases hrest : collectFrom (fun _ x => g x) (i + 1) xs with
      | none => simp [hx, hrest] at h
      | some zs =>
        simp only [hx, hrest, Option.some.injEq] at h
        subst h
        simp [hx, ih (i + 1) zs hrest]

theorem getReplacedPlaceholderMessage_plain_text (U : UnicodeTables) (error : Obj)
    (errorMessage : Str) (h : ∀ n : Str, ¬ (placeHolder n <:+: errorMessage)) :
    getReplacedPlaceholderMessage U error errorMessage = some errorMessage := by
  unfold getReplacedPlaceholderMessage GetPlaceHoldersInString
  rw [scanPlaceHolders_eq_nil errorMessage h]
  rfl

theorem choiceKey_under (U : UnicodeTables) (errorPath : Str) (subError : ApiSubError)
    (subErrorKey : Str) (choice : KeyChoice) :
    choiceKey U errorPath subError subErrorKey choice = errorPath
      ∨ ∃ s, choiceKey U errorPath subError subErrorKey choice
          = errorPath ++ jsonPathSeparator ++ s := by
  cases choice
  · exact Or.inr ⟨subError.RequestField ++ Title U subErrorKey, by simp [choiceKey]⟩
  · exact Or.inr ⟨"requirementId".toList ++ "TestSuiteId".toList ++ Title U subErrorKey, by
      simp [choiceKey]⟩
  · exact Or.inr ⟨"configVersionId".toList ++ "TestSuiteId".toList ++ Title U subErrorKey, by
      simp [choiceKey]⟩
  · exact Or.inr ⟨"testSuiteId".toList ++ "TestCaseId".toList ++ Title U subErrorKey, by
      simp [choiceKey]⟩
  · exact Or.inl rfl

theorem subErrorMessage_absent (E : Env)
    (jsonPathForCommand parentErrorKey subResource operation errorPath : Str)
    (subError : ApiSubError)
    (hpath : genericKey E jsonPathForCommand parentErrorKey subResource operation subError
      = some errorPath)
    (habsent : checkIfMessageExist E errorPath = false)
    (hunder : ∀ s, checkIfMessageExist E (errorPath ++ jsonPathSeparator ++ s) = false) :
    subErrorMessage E jsonPathForCommand parentErrorKey subResource operation subError
      = getReplacedPlaceholderMessage E.tables subError.toObj (fallbackString E) := by
  rw [subErrorMessage_choice E _ _ _ _ errorPath subError hpath]
  rcases choiceKey_under E.tables errorPath subError
    (getErrorJsonKeyForErrorType E.tables subError.Typ) (keyChoice E errorPath subError)
    with hs | ⟨s, hs⟩
  · rw [hs, getMessageForJsonPathOrFallback_absent E _ habsent]
  · rw [hs, getMessageForJsonPathOrFallback_absent E _ (hunder s)]

theorem catalogOf_absent (entries : List (Str × Result)) (path : Str)
    (h : ∀ e ∈ entries, e.1 ≠ path) : (catalogOf entries path).Exists = false := by
  unfold catalogOf
  cases hfind : entries.find? (fun e => e.1 = path) with
  | none => rfl
  | some e =>
    exfalso
    have := List.find?_some hfind
    exact h e (List.mem_of_find?_eq_some hfind) (by simpa using this)

/-- Nothing is in a catalog under a key when none of its paths starts with the
key followed by the separator. -/
theorem catalogOf_nothing_under (entries : List (Str × Result)) (key : Str)
    (h : ∀ e ∈ entries, (key ++ jsonPathSeparator).isPrefixOf e.1 = false) :
    ∀ s, (catalogOf entries (key ++ jsonPathSeparator ++ s)).Exists = false := by
  intro s
  apply catalogOf_absent
  intro e he heq
  have hp : (key ++ jsonPathSeparator).isPrefixOf e.1 = true := by
    rw [heq, List.isPrefixOf_iff_prefix]
    exact List.prefix_append _ _
  rw [h e he] at hp
  exact absurd hp (by simp)

/-- C11, as stated, fails: with the fallback string `Failed: {{type}}`, an API
error of type `notFound` on the application path, without sub-errors, whose
key is absent from the catalog, gets the message `Failed: notFound`: the
placeholder of the fallback string is substituted. -/
theorem GetApiErrorMessagesForCommand_fallback_counterexample :
    ¬ edgeGate ⟨"notFound".toList, 500, [], [], [], [], [], []⟩ "500".toList
      ∧ errorKey (envOf [("akamai.fallback".toList, leaf "Failed: \x7b\x7btype\x7d\x7d")])
          "akamai.testCenter".toList "notFound".toList "testSuite".toList "get".toList
        = some "akamai.testCenter.testSuite.get.notFound".toList
      ∧ checkIfMessageExist (envOf [("akamai.fallback".toList, leaf "Failed: \x7b\x7btype\x7d\x7d")])
          "akamai.testCenter.testSuite.get.notFound".toList = false
      ∧ fallbackString (envOf [("akamai.fallback".toList, leaf "Failed: \x7b\x7btype\x7d\x7d")])
        = "Failed: \x7b\x7btype\x7d\x7d".toList
      ∧ GetApiErrorMessagesForCommand
          (envOf [("akamai.fallback".toList, leaf "Failed: \x7b\x7btype\x7d\x7d")])
          ⟨"akamai test-center".toList⟩ ⟨"notFound".toList, 500, [], [], [], [], [], []⟩
          "testSuite".toList "get".toList "500".toList
        = Outcome.returned ["Failed: notFound".toList] := by
  decide

/-- C11, amended: for every catalog and every API error on the application path
(the gate not met, the key segments without a word made of hyphens only) whose
derived lookup key is absent from the catalog (for a sub-error: nothing is in
the catalog at its generic key, nor under it, that is at a path made of that key,
the separator and any text), each message returned is the
catalog's fallback string interpolated against the payload of the message, the
API error when there are no sub-errors and the sub-error otherwise; so the
placeholders of the fallback string are substituted like those of any message,
and the message is the fallback string verbatim when that string holds no
placeholder. -/
theorem GetApiErrorMessagesForCommand_fallback (E : Env) (cmd : Command) (apiError : ApiError)
    (subResource operation responseCode jsonPathForCommand : Str)
    (hcmd : getJsonPathForCommand E.tables cmd.CommandPath = some jsonPathForCommand)
    (hsub : hyphenWord subResource = false)
    (hop : hyphenWord operation = false)
    (htype : hyphenWord (getErrorJsonKeyForErrorType E.tables apiError.Typ) = false)
    (hsubs : ∀ subError ∈ apiError.Errors,
      hyphenWord (getErrorJsonKeyForErrorType E.tables subError.Typ) = false)
    (hgate : ¬ edgeGate apiError responseCode)
    (habsent : apiError.Errors = [] → ∀ errorPath,
      errorKey E jsonPathForCommand (getErrorJsonKeyForErrorType E.tables apiError.Typ)
        subResource operation = some errorPath →
      checkIfMessageExist E errorPath = false)
    (habsentSub : ∀ subError ∈ apiError.Errors, ∀ errorPath,
      genericKey E jsonPathForCommand (getErrorJsonKeyForErrorType E.tables apiError.Typ)
        subResource operation subError = some errorPath →
      checkIfMessageExist E errorPath = false
        ∧ ∀ s, checkIfMessageExist E (errorPath ++ jsonPathSeparator ++ s) = false) :
    (apiError.Errors = [] → ∃ message,
        GetApiErrorMessagesForCommand E cmd apiError subResource operation responseCode
          = Outcome.returned [message]
        ∧ getReplacedPlaceholderMessage E.tables apiError.toObj (fallbackString E)
          = some message)
      ∧ (apiError.Errors ≠ [] → ∃ errorMessages,
        GetApiErrorMessagesForCommand E cmd apiError subResource operation responseCode
          = Outcome.returned errorMessages
        ∧ errorMessages.map some
          = apiError.Errors.map (fun subError =>
              getReplacedPlaceholderMessage E.tables subError.toObj (fallbackString E)))
      ∧ ((∀ n : Str, ¬ (placeHolder n <:+: fallbackString E)) → ∃ errorMessages,
        GetApiErrorMessagesForCommand E cmd apiError subResource operation responseCode
          = Outcome.returned errorMessages
        ∧ ∀ message ∈ errorMessages, message = fallbackString E) := by
  have hkey := hyphenWord_of_key E.tables _ jsonPathForCommand hcmd
  have hone : apiError.Errors = [] → ∃ message,
      GetApiErrorMessagesForCommand E cmd apiError subResource operation responseCode
        = Outcome.returned [message]
      ∧ getReplacedPlaceholderMessage E.tables apiError.toObj (fallbackString E)
        = some message := by
    intro hempty
    obtain ⟨errorPath, hpath⟩ := errorKey_isSome E jsonPathForCommand
      (getErrorJsonKeyForErrorType E.tables apiError.Typ) subResource operation hkey hsub hop htype
    obtain ⟨message, hmessage⟩ := getReplacedPlaceholderMessage_apiError E.tables apiError
      (fallbackString E)
    refine ⟨message, ?_, hmessage⟩
    rw [GetApiErrorMessagesForCommand_application E cmd apiError _ _ _ _ hcmd hgate]
    have hlen : ¬ (apiError.Errors.length ≠ 0) := by simp [hempty]
    rw [if_neg hlen]
    simp only [hpath]
    rw [getMessageForJsonPathOrFallback_absent E errorPath (habsent hempty errorPath hpath)]
    simp only [hmessage]
  have hmany : apiError.Errors ≠ [] → ∃ errorMessages,
      GetApiErrorMessagesForCommand E cmd apiError subResource operation responseCode
        = Outcome.returned errorMessages
      ∧ errorMessages.map some
        = apiError.Errors.map (fun subError =>
            getReplacedPlaceholderMessage E.tables subError.toObj (fallbackString E)) := by
    intro hne
    have heach : ∀ subError ∈ apiError.Errors,
        subErrorMessage E jsonPathForCommand (getErrorJsonKeyForErrorType E.tables apiError.Typ)
            subResource operation subError
          = getReplacedPlaceholderMessage E.tables subError.toObj (fallbackString E) := by
      intro subError hmem
      obtain ⟨errorPath, hpath⟩ := genericKey_isSome E jsonPathForCommand
        (getErrorJsonKeyForErrorType E.tables apiError.Typ) subResource operation subError
        hkey hsub hop htype (hsubs subError hmem)
      exact subErrorMessage_absent E _ _ _ _ errorPath subError hpath
        (habsentSub subError hmem errorPath hpath).1 (habsentSub subError hmem errorPath hpath).2
    obtain ⟨ys, hys, hmap⟩ := collectFrom_all_some
      (subErrorMessage E jsonPathForCommand (getErrorJsonKeyForErrorType E.tables apiError.Typ)
        subResource operation) apiError.Errors
      (fun subError hmem => by
        rw [heach subError hmem]
        exact getReplacedPlaceholderMessage_subError E.tables subError _) 0
    refine ⟨ys, ?_, ?_⟩
    · rw [GetApiErrorMessagesForCommand_application E cmd apiError _ _ _ _ hcmd hgate]
      have hlen : apiError.Errors.length ≠ 0 := by
        intro h0
        exact hne (List.length_eq_zero.1 h0)
      rw [if_pos hlen, hys]
    · rw [hmap]
      exact List.map_congr_left heach
  refine ⟨hone, hmany, ?_⟩
  intro hplain
  by_cases hempty : apiError.Errors = []
  · obtain ⟨message, hres, hmessage⟩ := hone hempty
    refine ⟨[message], hres, ?_⟩
    intro m hm
    rw [getReplacedPlaceholderMessage_plain_text E.tables _ _ hplain] at hmessage
    simp only [List.mem_singleton] at hm
    rw [hm]
    exact (Option.some.inj hmessage).symm
  · obtain ⟨errorMessages, hres, hmap⟩ := hmany hempty
    refine ⟨errorMessages, hres, ?_⟩
    intro m hm
    have hin : some m ∈ errorMessages.map some := List.mem_map_of_mem _ hm
    rw [hmap] at hin
    obtain ⟨subError, _, hse⟩ := List.mem_map.1 hin
    rw [getReplacedPlaceholderMessage_plain_text E.tables _ _ hplain] at hse
    exact (Option.some.inj hse).symm

theorem GetApiErrorMessagesForCommand_fallback_witness :
    ((∃ message,
        GetApiErrorMessagesForCommand sampleEnv ⟨"akamai test-center".toList⟩
            ⟨"badRequest".toList, 500, [], [], [], [], [], []⟩
            "testSuite".toList "get".toList "500".toList
          = Outcome.returned [message]
        ∧ getReplacedPlaceholderMessage sampleEnv.tables
            (ApiError.toObj ⟨"badRequest".toList, 500, [], [], [], [], [], []⟩)
            (fallbackString sampleEnv) = some message)
      ∧ GetApiErrorMessagesForCommand sampleEnv ⟨"akamai test-center".toList⟩
            ⟨"badRequest".toList, 500, [], [], [], [], [], []⟩
            "testSuite".toList "get".toList "500".toList
          = Outcome.returned ["Something went wrong".toList])
      ∧ ((∃ errorMessages,
        GetApiErrorMessagesForCommand fallbackEnv ⟨"akamai test-center".toList⟩
            ⟨"badRequest".toList, 500, [], [], [], [], [],
              [⟨"invalidValue".toList, "suite".toList, 0, 0, 0⟩,
               ⟨"tooLong".toList, "name".toList, 0, 0, 0⟩]⟩
            "testSuite".toList "get".toList "500".toList
          = Outcome.returned errorMessages
        ∧ errorMessages.map some
          = [⟨"invalidValue".toList, "suite".toList, 0, 0, 0⟩,
              ⟨"tooLong".toList, "name".toList, 0, 0, 0⟩].map (fun subError =>
              getReplacedPlaceholderMessage fallbackEnv.tables (ApiSubError.toObj subError)
                (fallbackString fallbackEnv)))
      ∧ GetApiErrorMessagesForCommand fallbackEnv ⟨"akamai test-center".toList⟩
            ⟨"badRequest".toList, 500, [], [], [], [], [],
              [⟨"invalidValue".toList, "suite".toList, 0, 0, 0⟩,
               ⟨"tooLong".toList, "name".toList, 0, 0, 0⟩]⟩
            "testSuite".toList "get".toList "500".toList
          = Outcome.returned ["Failed: invalidValue".toList, "Failed: tooLong".toList]) :=
  ⟨⟨(GetApiErrorMessagesForCommand_fallback sampleEnv ⟨"akamai test-center".toList⟩
      ⟨"badRequest".toList, 500, [], [], [], [], [], []⟩
      "testSuite".toList "get".toList "500".toList "akamai.testCenter".toList
      (by decide) (by decide) (by decide) (by decide) (by decide) (by decide)
      (fun _ errorPath hpath => by
        have hk : errorKey sampleEnv "akamai.testCenter".toList
            (getErrorJsonKeyForErrorType sampleEnv.tables "badRequest".toList)
            "testSuite".toList "get".toList
            = some "akamai.testCenter.testSuite.get.badRequest".toList := by decide
        rw [hk] at hpath
        rw [← Option.some.inj hpath]
        decide)
      (fun subError hmem => absurd hmem (List.not_mem_nil _))).1 rfl,
    by decide⟩,
   ⟨(GetApiErrorMessagesForCommand_fallback fallbackEnv ⟨"akamai test-center".toList⟩
      ⟨"badRequest".toList, 500, [], [], [], [], [],
        [⟨"invalidValue".toList, "suite".toList, 0, 0, 0⟩,
         ⟨"tooLong".toList, "name".toList, 0, 0, 0⟩]⟩
      "testSuite".toList "get".toList "500".toList "akamai.testCenter".toList
      (by decide) (by decide) (by decide) (by decide) (by decide) (by decide)
      (fun hempty => absurd hempty (by decide))
      (fun subError hmem errorPath hpath => by
        simp only [List.mem_cons, List.mem_singleton, List.not_mem_nil, or_false] at hmem
        rcases hmem with hmem | hmem
        · subst hmem
          have hk : genericKey fallbackEnv "akamai.testCenter".toList
              (getErrorJsonKeyForErrorType fallbackEnv.tables "badRequest".toList)
              "testSuite".toList "get".toList ⟨"invalidValue".toList, "suite".toList, 0, 0, 0⟩
              = some "akamai.testCenter.testSuite.get.badRequest.invalidValue".toList := by
            decide
          rw [hk] at hpath
          rw [← Option.some.inj hpath]
          exact ⟨by decide, catalogOf_nothing_under _ _ (by decide)⟩
        · subst hmem
          have hk : genericKey fallbackEnv "akamai.testCenter".toList
              (getErrorJsonKeyForErrorType fallbackEnv.tables "badRequest".toList)
              "testSuite".toList "get".toList ⟨"tooLong".toList, "name".toList, 0, 0, 0⟩
              = some "akamai.testCenter.testSuite.get.badRequest.tooLong".toList := by
            decide
          rw [hk] at hpath
          rw [← Option.some.inj hpath]
          exact ⟨by decide, catalogOf_nothing_under _ _ (by decide)⟩)).2.1 (by decide),
    by decide⟩⟩

/-! ## Flags, sub-arguments and service messages -/

/-- C12: for every selector that is not one of the recognised values (an error
type other than `Missing` and `Invalid` for `GetErrorMessageForFlag` and
`GetErrorMessageForSubArgument`, a message type other than the three of
`GetServiceMessage`) the key of the command is left unchanged: the result is
`getMessageForJsonPathOrFallback` of `getJsonPathForCommand` of the command
path, whatever the flag name, the sub-command name, the sub-resource and the
message key are. -/
theorem unrecognised_selector_pass_through (E : Env) (cmd : Command) :
    (∀ errorType flagKeyInJson : Str, errorType ≠ E.Missing → errorType ≠ E.Invalid →
        GetErrorMessageForFlag E cmd errorType flagKeyInJson
          = (getJsonPathForCommand E.tables cmd.CommandPath).map
              (getMessageForJsonPathOrFallback E))
      ∧ (∀ errorType subCommandKeyInJson : Str, errorType ≠ E.Missing → errorType ≠ E.Invalid →
        GetErrorMessageForSubArgument E cmd errorType subCommandKeyInJson
          = (getJsonPathForCommand E.tables cmd.CommandPath).map
              (getMessageForJsonPathOrFallback E))
      ∧ (∀ messageType subresource jsonKey : Str, messageType ≠ E.MessageTypeSpinner →
        messageType ≠ E.MessageTypeDisplay → messageType ≠ E.MessageTypeTestCmdSpinner →
        GetServiceMessage E cmd messageType subresource jsonKey
          = (getJsonPathForCommand E.tables cmd.CommandPath).map
              (getMessageForJsonPathOrFallback E)) := by
  refine ⟨?_, ?_, ?_⟩
  · intro errorType flagKeyInJson h1 h2
    unfold GetErrorMessageForFlag
    cases getJsonPathForCommand E.tables cmd.CommandPath with
    | none => rfl
    | some jsonPath => simp [h1, h2]
  · intro errorType subCommandKeyInJson h1 h2
    unfold GetErrorMessageForSubArgument
    cases getJsonPathForCommand E.tables cmd.CommandPath with
    | none => rfl
    | some jsonPath => simp [h1, h2]
  · intro messageType subresource jsonKey h1 h2 h3
    unfold GetServiceMessage
    cases getJsonPathForCommand E.tables cmd.CommandPath with
    | none => rfl
    | some jsonPath => simp [h1, h2, h3]

/-- C13, as stated, fails: under the parent key `badRequest` a sub-error of type
`resourceNotFound` whose extended key exists gets the request-field override;
and under the parent key `resourceNotFound` a sub-error of type `invalidValue`
whose extended key exists does not get it, the generic key is resolved. -/
theorem requestField_override_counterexample :
    genericKey overrideEnv "akamai.testCenter".toList "badRequest".toList "testRun".toList
        "submit".toList ⟨"resourceNotFound".toList, "suite".toList, 0, 0, 0⟩
      = some "akamai.testCenter.testRun.submit.badRequest.resourceNotFound".toList
      ∧ keyChoice overrideEnv "akamai.testCenter.testRun.submit.badRequest.resourceNotFound".toList
          ⟨"resourceNotFound".toList, "suite".toList, 0, 0, 0⟩ = KeyChoice.requestField
      ∧ GetApiSubErrorMessagesForCommand overrideEnv ⟨"akamai test-center".toList⟩
          [⟨"resourceNotFound".toList, "suite".toList, 0, 0, 0⟩]
          "badRequest".toList "testRun".toList "submit".toList
        = some ["Suite missing".toList]
      ∧ genericKey overrideEnv "akamai.testCenter".toList "resourceNotFound".toList
          "testRun".toList "submit".toList ⟨"invalidValue".toList, "suite".toList, 0, 0, 0⟩
        = some "akamai.testCenter.testRun.submit.resourceNotFound.invalidValue".toList
      ∧ checkIfMessageExist overrideEnv
          "akamai.testCenter.testRun.submit.resourceNotFound.invalidValue.suiteInvalidValue".toList
        = true
      ∧ keyChoice overrideEnv "akamai.testCenter.testRun.submit.resourceNotFound.invalidValue".toList
          ⟨"invalidValue".toList, "suite".toList, 0, 0, 0⟩ = KeyChoice.generic
      ∧ GetApiSubErrorMessagesForCommand overrideEnv ⟨"akamai test-center".toList⟩
          [⟨"invalidValue".toList, "suite".toList, 0, 0, 0⟩]
          "resourceNotFound".toList "testRun".toList "submit".toList
        = some ["Something went wrong".toList] := by
  decide

/-- C13, amended: the request-field override (the key made of the generic key, a
dot, the request field and the title-cased sub-error key) is used for a
sub-error exactly when the sub-error's own key occurs in the text
`resourceNotFound,resourceInDeletedState`, as the keys `resourceNotFound` and
`resourceInDeletedState` do, and that extended key exists in the catalog; the
parent error key is not tested. The message is then the one resolved for the
key of the branch taken, interpolated against the sub-error. -/
theorem requestField_override_iff (E : Env)
    (jsonPathForCommand parentErrorKey subResource operation errorPath : Str)
    (subError : ApiSubError)
    (hpath : genericKey E jsonPathForCommand parentErrorKey subResource operation subError
      = some errorPath) :
    (keyChoice E errorPath subError = KeyChoice.requestField ↔
        Contains "resourceNotFound,resourceInDeletedState".toList
            (getErrorJsonKeyForErrorType E.tables subError.Typ) = true
          ∧ checkIfMessageExist E (errorPath ++ jsonPathSeparator ++ subError.RequestField
              ++ Title E.tables (getErrorJsonKeyForErrorType E.tables subError.Typ)) = true)
      ∧ subErrorMessage E jsonPathForCommand parentErrorKey subResource operation subError
        = getReplacedPlaceholderMessage E.tables subError.toObj
            (getMessageForJsonPathOrFallback E
              (choiceKey E.tables errorPath subError
                (getErrorJsonKeyForErrorType E.tables subError.Typ)
                (keyChoice E errorPath subError)))
      ∧ Contains "resourceNotFound,resourceInDeletedState".toList "resourceNotFound".toList = true
      ∧ Contains "resourceNotFound,resourceInDeletedState".toList "resourceInDeletedState".toList
        = true := by
  refine ⟨?_, subErrorMessage_choice E _ _ _ _ errorPath subError hpath, by decide, by decide⟩
  unfold keyChoice
  simp only [choiceKey]
  constructor
  · intro h
    by_contra hcond
    have hfalse : (Contains "resourceNotFound,resourceInDeletedState".toList
        (getErrorJsonKeyForErrorType E.tables subError.Typ)
        && checkIfMessageExist E (errorPath ++ jsonPathSeparator ++ subError.RequestField
          ++ Title E.tables (getErrorJsonKeyForErrorType E.tables subError.Typ))) = false := by
      simpa [Bool.and_eq_true] using hcond
    rw [hfalse] at h
    simp only [Bool.false_eq_true, if_false] at h
    split at h
    · split at h
      · exact absurd h (by decide)
      · split at h
        · exact absurd h (by decide)
        · split at h <;> exact absurd h (by decide)
    · exact absurd h (by decide)
  · intro h
    have hcond : (Contains "resourceNotFound,resourceInDeletedState".toList
        (getErrorJsonKeyForErrorType E.tables subError.Typ)
        && checkIfMessageExist E (errorPath ++ jsonPathSeparator ++ subError.RequestField
          ++ Title E.tables (getErrorJsonKeyForErrorType E.tables subError.Typ))) = true := by
      rw [h.1, h.2]
      rfl
    rw [if_pos hcond]

theorem requestField_override_iff_witness :
    genericKey overrideEnv "akamai.testCenter".toList "badRequest".toList "testRun".toList
        "submit".toList ⟨"resourceNotFound".toList, "suite".toList, 0, 0, 0⟩
      = some "akamai.testCenter.testRun.submit.badRequest.resourceNotFound".toList
      ∧ (keyChoice overrideEnv
            "akamai.testCenter.testRun.submit.badRequest.resourceNotFound".toList
            ⟨"resourceNotFound".toList, "suite".toList, 0, 0, 0⟩ = KeyChoice.requestField ↔
          Contains "resourceNotFound,resourceInDeletedState".toList
              (getErrorJsonKeyForErrorType overrideEnv.tables "resourceNotFound".toList) = true
            ∧ checkIfMessageExist overrideEnv
                ("akamai.testCenter.testRun.submit.badRequest.resourceNotFound".toList
                  ++ jsonPathSeparator ++ "suite".toList
                  ++ Title overrideEnv.tables
                    (getErrorJsonKeyForErrorType overrideEnv.tables "resourceNotFound".toList))
              = true) :=
  ⟨by decide,
    (requestField_override_iff overrideEnv "akamai.testCenter".toList "badRequest".toList
      "testRun".toList "submit".toList
      "akamai.testCenter.testRun.submit.badRequest.resourceNotFound".toList
      ⟨"resourceNotFound".toList, "suite".toList, 0, 0, 0⟩ (by decide)).1⟩

/-- C14: when the association-not-found override applies to a sub-error (the
first custom logic did not take it and its key occurs in the text
`associationNotFound`), the candidates are tried in the fixed order
requirement id, config version id, test suite id; a candidate qualifies only
if its numeric id field is not zero and its extended key exists in the
catalog; the branch taken is the first candidate that qualifies, the generic
key when none does, and the message is resolved for the key of that branch and
interpolated against the sub-error. A sub-error whose key is
`associationNotFound` itself is such a sub-error. -/
theorem association_override_order (E : Env) (errorPath : Str) (subError : ApiSubError)
    (happlies : associationApplies E errorPath subError = true) :
    keyChoice E errorPath subError
        = ([KeyChoice.requirementId, KeyChoice.configVersionId, KeyChoice.testSuiteId].find?
            (qualifies E errorPath subError)).getD KeyChoice.generic
      ∧ (∀ jsonPathForCommand parentErrorKey subResource operation : Str,
          genericKey E jsonPathForCommand parentErrorKey subResource operation subError
            = some errorPath →
          subErrorMessage E jsonPathForCommand parentErrorKey subResource operation subError
            = getReplacedPlaceholderMessage E.tables subError.toObj
                (getMessageForJsonPathOrFallback E
                  (choiceKey E.tables errorPath subError
                    (getErrorJsonKeyForErrorType E.tables subError.Typ)
                    (([KeyChoice.requirementId, KeyChoice.configVersionId,
                        KeyChoice.testSuiteId].find?
                      (qualifies E errorPath subError)).getD KeyChoice.generic))))
      ∧ (getErrorJsonKeyForErrorType E.tables subError.Typ = "associationNotFound".toList →
          associationApplies E errorPath subError = true) := by
  have hchoice : keyChoice E errorPath subError
      = ([KeyChoice.requirementId, KeyChoice.configVersionId, KeyChoice.testSuiteId].find?
          (qualifies E errorPath subError)).getD KeyChoice.generic := by
    unfold associationApplies at happlies
    simp only [Bool.and_eq_true, Bool.not_eq_true'] at happlies
    unfold keyChoice
    simp only [happlies.1, happlies.2, Bool.false_eq_true, if_false, if_true]
    simp only [List.find?, qualifies]
    by_cases h1 : (subError.RequirementId != 0 && checkIfMessageExist E
        (choiceKey E.tables errorPath subError (getErrorJsonKeyForErrorType E.tables subError.Typ)
          KeyChoice.requirementId)) = true
    · simp [h1]
    · by_cases h2 : (subError.ConfigVersionId != 0 && checkIfMessageExist E
          (choiceKey E.tables errorPath subError
            (getErrorJsonKeyForErrorType E.tables subError.Typ)
            KeyChoice.configVersionId)) = true
      · simp [h1, h2]
      · by_cases h3 : (subError.TestSuiteId != 0 && checkIfMessageExist E
            (choiceKey E.tables errorPath subError
              (getErrorJsonKeyForErrorType E.tables subError.Typ)
              KeyChoice.testSuiteId)) = true
        · simp [h1, h2, h3]
        · simp [h1, h2, h3]
  refine ⟨hchoice, ?_, ?_⟩
  · intro jsonPathForCommand parentErrorKey subResource operation hpath
    rw [← hchoice]
    exact subErrorMessage_choice E _ _ _ _ errorPath subError hpath
  · intro hkey
    unfold associationApplies
    rw [hkey]
    have h1 : Contains "resourceNotFound,resourceInDeletedState".toList
        "associationNotFound".toList = false := by decide
    have h2 : Contains "associationNotFound".toList "associationNotFound".toList = true := by
      decide
    rw [h1, h2]
    rfl

theorem association_override_order_witness :
    associationApplies associationEnv
        "akamai.testCenter.testRun.submit.badRequest.associationNotFound".toList
        ⟨"associationNotFound".toList, [], 5, 3, 7⟩ = true
      ∧ keyChoice associationEnv
          "akamai.testCenter.testRun.submit.badRequest.associationNotFound".toList
          ⟨"associationNotFound".toList, [], 5, 3, 7⟩
        = ([KeyChoice.requirementId, KeyChoice.configVersionId, KeyChoice.testSuiteId].find?
            (qualifies associationEnv
              "akamai.testCenter.testRun.submit.badRequest.associationNotFound".toList
              ⟨"associationNotFound".toList, [], 5, 3, 7⟩)).getD KeyChoice.generic
      ∧ keyChoice associationEnv
          "akamai.testCenter.testRun.submit.badRequest.associationNotFound".toList
          ⟨"associationNotFound".toList, [], 5, 3, 7⟩ = KeyChoice.configVersionId
      ∧ GetApiSubErrorMessagesForCommand associationEnv ⟨"akamai test-center".toList⟩
          [⟨"associationNotFound".toList, [], 5, 3, 7⟩, ⟨"associationNotFound".toList, [], 5, 0, 7⟩,
            ⟨"associationNotFound".toList, [], 5, 0, 0⟩]
          "badRequest".toList "testRun".toList "submit".toList
        = some ["Suite 7 is not tied to version 3".toList, "Case is not in suite 7".toList,
            "Something went wrong".toList] :=
  ⟨by decide,
    (association_override_order associationEnv
      "akamai.testCenter.testRun.submit.badRequest.associationNotFound".toList
      ⟨"associationNotFound".toList, [], 5, 3, 7⟩ (by decide)).1,
    by decide, by decide⟩

/-! ## An API error without sub-errors -/

theorem isPrefixOf_append_right (a s t : Str) (h : a.isPrefixOf s = true) :
    a.isPrefixOf (s ++ t) = true := by
  rw [List.isPrefixOf_iff_prefix] at h ⊢
  obtain ⟨r, hr⟩ := h
  exact ⟨r ++ t, by rw [← hr]; simp⟩

theorem Contains_append_right (s t substr : Str) (h : Contains s substr = true) :
    Contains (s ++ t) substr = true := by
  induction s with
  | nil =>
    simp only [Contains, List.isEmpty_iff] at h
    subst h
    cases t <;> simp [Contains]
  | cons c cs ih =>
    simp only [Contains, Bool.or_eq_true] at h
    simp only [List.cons_append, Contains, Bool.or_eq_true]
    rcases h with h | h
    · exact Or.inl (isPrefixOf_append_right _ (c :: cs) t h)
    · exact Or.inr (ih h)

theorem onlyHyphens_of_plain (w : Str) (hne : w ≠ []) (h : ∀ c ∈ w, plain c) :
    onlyHyphens w = false := by
  cases w with
  | nil => exact absurd rfl hne
  | cons c cs =>
    have hc := (h c (List.mem_cons_self _ _)).2
    simp [onlyHyphens, hc]

theorem getErrorJsonKeyForErrorType_eq (U : UnicodeTables) (errorType : Str) :
    getErrorJsonKeyForErrorType U errorType
      = match Split errorType '.' with
        | [] => []
        | first :: later => first ++ (later.map (Title U)).flatten := by
  unfold getErrorJsonKeyForErrorType
  simp only []
  rw [Join_nil_sep]
  cases Split errorType '.' with
  | nil => rfl
  | cons first later => simp [mapFrom, mapFrom_succ]

/-- The key of an API error without sub-errors, for segments that are single
words without hyphen: the dot-join of the segments. -/
theorem errorKey_plain (E : Env) (jsonPathForCommand parentErrorKey subResource operation p : Str)
    (hkey : getJsonPathForCommand E.tables p = some jsonPathForCommand)
    (hsub : subResource ≠ [] ∧ ∀ c ∈ subResource, plain c)
    (hop : operation ≠ [] ∧ ∀ c ∈ operation, plain c)
    (hparent : parentErrorKey ≠ [] ∧ ∀ c ∈ parentErrorKey, plain c) :
    errorKey E jsonPathForCommand parentErrorKey subResource operation
      = some (Join [jsonPathForCommand, subResource, operation, parentErrorKey]
          jsonPathSeparator) := by
  obtain ⟨hroot, hplain⟩ := getJsonPathForCommand_plain E.tables p jsonPathForCommand hkey
  have ha : 'a' ∈ jsonPathForCommand := Contains_mem _ _ hroot 'a' (by decide)
  have hne : jsonPathForCommand ≠ [] := by intro he; rw [he] at ha; simp at ha
  have hjoin : Join [jsonPathForCommand, subResource, operation, parentErrorKey] [' ']
      = jsonPathForCommand ++ ' ' :: (subResource ++ ' ' :: (operation ++ ' '
        :: parentErrorKey)) := by
    simp [Join, List.intercalate]
  have hfields : Fields (Join [jsonPathForCommand, subResource, operation, parentErrorKey] [' '])
      = [jsonPathForCommand, subResource, operation, parentErrorKey] := by
    rw [hjoin, Fields_append_blank, Fields_append_blank, Fields_append_blank,
      Fields_of_plain _ hne hplain, Fields_of_plain _ hsub.1 hsub.2,
      Fields_of_plain _ hop.1 hop.2, Fields_of_plain _ hparent.1 hparent.2]
    rfl
  have hconv : converted E.tables
      (Join [jsonPathForCommand, subResource, operation, parentErrorKey] [' '])
      = Join [jsonPathForCommand, subResource, operation, parentErrorKey] jsonPathSeparator := by
    unfold converted
    rw [hfields]
    simp only [List.map_cons, List.map_nil, camel_of_plain E.tables _ hplain,
      camel_of_plain E.tables _ hsub.2, camel_of_plain E.tables _ hop.2,
      camel_of_plain E.tables _ hparent.2]
  have hcontains : Contains
      (Join [jsonPathForCommand, subResource, operation, parentErrorKey] jsonPathSeparator)
      rootCommandName = true := by
    have : Join [jsonPathForCommand, subResource, operation, parentErrorKey] jsonPathSeparator
        = jsonPathForCommand ++ (jsonPathSeparator ++ (subResource ++ (jsonPathSeparator
          ++ (operation ++ (jsonPathSeparator ++ parentErrorKey))))) := by
      simp [Join, List.intercalate]
    rw [this]
    exact Contains_append_right _ _ _ hroot
  unfold errorKey
  rw [getJsonPathForCommand_eq, hfields, hconv]
  have hany : [jsonPathForCommand, subResource, operation, parentErrorKey].any onlyHyphens
      = false := by
    simp only [List.any_cons, List.any_nil, onlyHyphens_of_plain _ hne hplain,
      onlyHyphens_of_plain _ hsub.1 hsub.2, onlyHyphens_of_plain _ hop.1 hop.2,
      onlyHyphens_of_plain _ hparent.1 hparent.2, Bool.or_self]
  simp only [hany, hcontains, Bool.false_eq_true, if_false, if_true]

/-- C15, as stated, fails: for the error type `errors.not+found` the parent error
key of the claim is `errorsNot+found`, with which the claimed key is
`akamai.testCenter.testSuite.get.errorsNot+found` and the claimed message the
fallback string; the code builds the parent key `errorsNot+Found` (`strings.Title`
capitalises after the plus sign as well) and returns the message of the key
`akamai.testCenter.testSuite.get.errorsNot+Found`. -/
theorem GetApiErrorMessagesForCommand_single_counterexample :
    ¬ edgeGate ⟨"errors.not+found".toList, 500, [], [], [], [], [], []⟩ "500".toList
      ∧ parentErrorKeySpec titleEnv.tables "errors.not+found".toList = "errorsNot+found".toList
      ∧ getErrorJsonKeyForErrorType titleEnv.tables "errors.not+found".toList
        = "errorsNot+Found".toList
      ∧ getReplacedPlaceholderMessage titleEnv.tables
          (ApiError.toObj ⟨"errors.not+found".toList, 500, [], [], [], [], [], []⟩)
          (getMessageForJsonPathOrFallback titleEnv
            (Join ["akamai.testCenter".toList, "testSuite".toList, "get".toList,
              parentErrorKeySpec titleEnv.tables "errors.not+found".toList] jsonPathSeparator))
        = some "Something went wrong".toList
      ∧ GetApiErrorMessagesForCommand titleEnv ⟨"akamai test-center".toList⟩
          ⟨"errors.not+found".toList, 500, [], [], [], [], [], []⟩
          "testSuite".toList "get".toList "500".toList
        = Outcome.returned ["No such thing".toList] := by
  decide

/-- C15, amended: for every API error on the application path (the gate not met)
with an empty list of sub-errors, and key segments without a word made of
hyphens only, the call returns a list of exactly one message, the message
resolved for the key `k` and interpolated against the API error; and when the
sub-resource, the operation and the parent error key are non-empty and hold
neither white space nor a hyphen, `k` is the dot-join of the command key, the
sub-resource, the operation and the parent error key, the parent error key
being the error type with its dot-separated segments after the first passed
through `strings.Title` and all segments concatenated. -/
theorem GetApiErrorMessagesForCommand_single (E : Env) (cmd : Command) (apiError : ApiError)
    (subResource operation responseCode : Str)
    (hcmd : hyphenWord cmd.CommandPath = false)
    (hsub : hyphenWord subResource = false)
    (hop : hyphenWord operation = false)
    (htype : hyphenWord (getErrorJsonKeyForErrorType E.tables apiError.Typ) = false)
    (hgate : ¬ edgeGate apiError responseCode)
    (hempty : apiError.Errors = []) :
    ∃ jsonPathForCommand k message,
      getJsonPathForCommand E.tables cmd.CommandPath = some jsonPathForCommand
        ∧ errorKey E jsonPathForCommand (getErrorJsonKeyForErrorType E.tables apiError.Typ)
            subResource operation = some k
        ∧ GetApiErrorMessagesForCommand E cmd apiError subResource operation responseCode
          = Outcome.returned [message]
        ∧ getReplacedPlaceholderMessage E.tables apiError.toObj
            (getMessageForJsonPathOrFallback E k) = some message
        ∧ ((subResource ≠ [] ∧ ∀ c ∈ subResource, plain c) →
            (operation ≠ [] ∧ ∀ c ∈ operation, plain c) →
            (getErrorJsonKeyForErrorType E.tables apiError.Typ ≠ []
              ∧ ∀ c ∈ getErrorJsonKeyForErrorType E.tables apiError.Typ, plain c) →
            k = Join [jsonPathForCommand, subResource, operation,
              getErrorJsonKeyForErrorType E.tables apiError.Typ] jsonPathSeparator)
        ∧ getErrorJsonKeyForErrorType E.tables apiError.Typ
          = (match Split apiError.Typ '.' with
            | [] => []
            | first :: later => first ++ (later.map (Title E.tables)).flatten) := by
  obtain ⟨jp, hjp⟩ := getJsonPathForCommand_isSome E.tables _ hcmd
  have hkey := hyphenWord_of_key E.tables _ jp hjp
  obtain ⟨k, hk⟩ := errorKey_isSome E jp (getErrorJsonKeyForErrorType E.tables apiError.Typ)
    subResource operation hkey hsub hop htype
  obtain ⟨message, hmessage⟩ := getReplacedPlaceholderMessage_apiError E.tables apiError
    (getMessageForJsonPathOrFallback E k)
  refine ⟨jp, k, message, hjp, hk, ?_, hmessage, ?_, getErrorJsonKeyForErrorType_eq _ _⟩
  · rw [GetApiErrorMessagesForCommand_application E cmd apiError _ _ _ _ hjp hgate]
    have hlen : ¬ (apiError.Errors.length ≠ 0) := by simp [hempty]
    rw [if_neg hlen]
    simp only [hk, hmessage]
  · intro h1 h2 h3
    have := errorKey_plain E jp (getErrorJsonKeyForErrorType E.tables apiError.Typ) subResource
      operation cmd.CommandPath hjp h1 h2 h3
    rw [hk] at this
    exact Option.some.inj this

theorem GetApiErrorMessagesForCommand_single_witness :
    GetApiErrorMessagesForCommand titleEnv ⟨"akamai test-center".toList⟩
        ⟨"errors.not+found".toList, 500, [], [], [], [], [], []⟩
        "testSuite".toList "get".toList "500".toList
      = Outcome.returned ["No such thing".toList]
      ∧ ∃ jsonPathForCommand k message,
        getJsonPathForCommand titleEnv.tables "akamai test-center".toList
            = some jsonPathForCommand
          ∧ errorKey titleEnv jsonPathForCommand
              (getErrorJsonKeyForErrorType titleEnv.tables "errors.not+found".toList)
              "testSuite".toList "get".toList = some k
          ∧ GetApiErrorMessagesForCommand titleEnv ⟨"akamai test-center".toList⟩
              ⟨"errors.not+found".toList, 500, [], [], [], [], [], []⟩
              "testSuite".toList "get".toList "500".toList
            = Outcome.returned [message] :=
  ⟨by decide, by
    obtain ⟨jp, k, m, h1, h2, h3, _⟩ := GetApiErrorMessagesForCommand_single titleEnv
      ⟨"akamai test-center".toList⟩ ⟨"errors.not+found".toList, 500, [], [], [], [], [], []⟩
      "testSuite".toList "get".toList "500".toList
      (by decide) (by decide) (by decide) (by decide) (by decide) rfl
    exact ⟨jp, k, m, h1, h2, h3⟩⟩

/-! ## The list of sub-errors -/

theorem collectFrom_index {α β : Type} (g : α → Option β) (xs : List α) :
    ∀ i j, collectFrom (fun _ x => g x) i xs = collectFrom (fun _ x => g x) j xs := by
  induction xs with
  | nil => intro i j; rfl
  | cons x xs ih =>
    intro i j
    simp only [collectFrom]
    rw [ih (i + 1) (j + 1)]

theorem collectFrom_append {α β : Type} (g : α → Option β) (xs ys : List α) :
    ∀ i, collectFrom (fun _ x => g x) i (xs ++ ys)
      = (collectFrom (fun _ x => g x) i xs).bind
          (fun a => (collectFrom (fun _ x => g x) i ys).map (fun b => a ++ b)) := by
  induction xs with
  | nil =>
    intro i
    simp only [List.nil_append, collectFrom, Option.some_bind]
    cases collectFrom (fun _ x => g x) i ys <;> simp
  | cons x xs ih =>
    intro i
    simp only [List.cons_append, collectFrom]
    cases g x with
    | none => rfl
    | some v =>
      simp only []
      have ih2 : collectFrom (fun _ x => g x) (i + 1) (xs.append ys)
          = (collectFrom (fun _ x => g x) (i + 1) xs).bind
              (fun a => (collectFrom (fun _ x => g x) (i + 1) ys).map (fun b => a ++ b)) :=
        ih (i + 1)
      rw [ih2, collectFrom_index g ys (i + 1) i]
      cases collectFrom (fun _ x => g x) (i + 1) xs with
      | none => rfl
      | some vs =>
        simp only [Option.some_bind]
        cases collectFrom (fun _ x => g x) i ys <;> simp

/-- C16: for every sub-error to which no override of the custom logic applies,
the message produced by `GetApiSubErrorMessagesForCommand` is the message
resolved for the generic key (built from the command key, the sub-resource, the
operation, the parent error key and the sub-error's own key) and interpolated
against the sub-error, not against the parent API error. Stated for the whole
list: when the key of the command and the generic key of every sub-error are
built, the call returns one message per sub-error, and the message at the
place of such a sub-error is that interpolation. -/
theorem GetApiSubErrorMessagesForCommand_generic (E : Env) (cmd : Command)
    (apiSubError : List ApiSubError)
    (parentErrorKey subResource operation jsonPathForCommand : Str)
    (hcmd : getJsonPathForCommand E.tables cmd.CommandPath = some jsonPathForCommand)
    (hkeys : ∀ subError ∈ apiSubError, ∃ g,
      genericKey E jsonPathForCommand parentErrorKey subResource operation subError = some g) :
    ∃ errorMessages,
      GetApiSubErrorMessagesForCommand E cmd apiSubError parentErrorKey subResource operation
          = some errorMessages
        ∧ errorMessages.length = apiSubError.length
        ∧ ∀ (i : Nat) (hi : i < apiSubError.length) (g : Str),
            genericKey E jsonPathForCommand parentErrorKey subResource operation apiSubError[i]
              = some g →
            keyChoice E g apiSubError[i] = KeyChoice.generic →
            ∃ message, errorMessages[i]? = some message
              ∧ getReplacedPlaceholderMessage E.tables apiSubError[i].toObj
                  (getMessageForJsonPathOrFallback E g) = some message := by
  have hsome : ∀ subError ∈ apiSubError, ∃ m,
      subErrorMessage E jsonPathForCommand parentErrorKey subResource operation subError
        = some m := by
    intro subError hmem
    obtain ⟨g, hg⟩ := hkeys subError hmem
    rw [subErrorMessage_choice E _ _ _ _ g subError hg]
    exact getReplacedPlaceholderMessage_subError E.tables subError _
  obtain ⟨ys, hys, hmap⟩ := collectFrom_all_some
    (subErrorMessage E jsonPathForCommand parentErrorKey subResource operation) apiSubError hsome 0
  have hlen : ys.length = apiSubError.length := by
    have := congrArg List.length hmap
    simpa using this
  refine ⟨ys, ?_, hlen, ?_⟩
  · rw [GetApiSubErrorMessagesForCommand_eq E cmd _ _ _ _ jsonPathForCommand hcmd, hys]
  · intro i hi g hg hchoice
    have hiy : i < ys.length := by omega
    refine ⟨ys[i], List.getElem?_eq_getElem hiy, ?_⟩
    have h1 : (ys.map some)[i]? = (apiSubError.map
        (subErrorMessage E jsonPathForCommand parentErrorKey subResource operation))[i]? := by
      rw [hmap]
    rw [List.getElem?_map, List.getElem?_map, List.getElem?_eq_getElem hiy,
      List.getElem?_eq_getElem hi] at h1
    simp only [Option.map_some', Option.some.injEq] at h1
    rw [h1, subErrorMessage_choice E _ _ _ _ g apiSubError[i] hg, hchoice]
    rfl

theorem GetApiSubErrorMessagesForCommand_generic_witness :
    (∃ errorMessages,
      GetApiSubErrorMessagesForCommand overrideEnv ⟨"akamai test-center".toList⟩
          [⟨"invalidValue".toList, "suite".toList, 0, 0, 0⟩]
          "badRequest".toList "testRun".toList "submit".toList = some errorMessages
        ∧ errorMessages.length = 1)
      ∧ keyChoice overrideEnv "akamai.testCenter.testRun.submit.badRequest.invalidValue".toList
          ⟨"invalidValue".toList, "suite".toList, 0, 0, 0⟩ = KeyChoice.generic
      ∧ GetApiSubErrorMessagesForCommand overrideEnv ⟨"akamai test-center".toList⟩
          [⟨"invalidValue".toList, "suite".toList, 0, 0, 0⟩]
          "badRequest".toList "testRun".toList "submit".toList
        = some ["Something went wrong".toList] :=
  ⟨by
    obtain ⟨ms, h1, h2, _⟩ := GetApiSubErrorMessagesForCommand_generic overrideEnv
      ⟨"akamai test-center".toList⟩ [⟨"invalidValue".toList, "suite".toList, 0, 0, 0⟩]
      "badRequest".toList "testRun".toList "submit".toList "akamai.testCenter".toList
      (by decide)
      (fun subError hmem => by
        simp only [List.mem_singleton] at hmem
        subst hmem
        exact ⟨"akamai.testCenter.testRun.submit.badRequest.invalidValue".toList, by decide⟩)
    exact ⟨ms, h1, h2⟩,
    by decide, by decide⟩

/-- C17: on the edge path the printed output is exactly, in this order, the
edge-grid message keyed by `getErrorJsonKeyForDetail` of the detail when the
status is 400 or 401 and the detail is non-empty, the edge-grid
`resourceNotFound` message when the status is 404, the edge-grid `notAuthorized`
message when the response code is `401` and the error code is non-empty, and
always, last, the global `initEdgeRc` message (each printed with a line feed
after it); the call leaves only after these prints, with the exit code
`GetHttpExitCode(responseCode)`. The edge path is taken whenever the gate is met
and the key of the command is built. -/
theorem GetApiErrorMessagesForCommand_edge (E : Env) (cmd : Command) (apiError : ApiError)
    (subResource operation responseCode : Str) :
    (∀ printed code,
        GetApiErrorMessagesForCommand E cmd apiError subResource operation responseCode
          = Outcome.exited printed code →
        printed = edgeOutput E apiError responseCode ∧ code = E.GetHttpExitCode responseCode)
      ∧ (edgeGate apiError responseCode → hyphenWord cmd.CommandPath = false →
        GetApiErrorMessagesForCommand E cmd apiError subResource operation responseCode
          = Outcome.exited (edgeOutput E apiError responseCode)
              (E.GetHttpExitCode responseCode)) := by
  have hedge : ∀ jp, getJsonPathForCommand E.tables cmd.CommandPath = some jp →
      edgeGate apiError responseCode →
      GetApiErrorMessagesForCommand E cmd apiError subResource operation responseCode
        = Outcome.exited (edgeOutput E apiError responseCode)
            (E.GetHttpExitCode responseCode) := by
    intro jp hjp hgate
    have hg : (apiError.ClientIp ≠ Empty ∧ apiError.ServerIp ≠ Empty
        ∧ apiError.RequestId ≠ Empty) ∨ (responseCode = "401".toList ∧ apiError.Code ≠ Empty) :=
      hgate
    unfold GetApiErrorMessagesForCommand edgeOutput
    simp only [hjp]
    rw [if_pos hg]
    unfold Empty
    by_cases h1 : (apiError.Status = 400 ∨ apiError.Status = 401) ∧ apiError.Detail ≠ []
    · by_cases h2 : apiError.Status = 404
      · by_cases h3 : responseCode = "401".toList ∧ apiError.Code ≠ []
        · simp only [if_pos h1, if_pos h2, if_pos h3]
        · simp only [if_pos h1, if_pos h2, if_neg h3, List.append_nil]
      · by_cases h3 : responseCode = "401".toList ∧ apiError.Code ≠ []
        · simp only [if_pos h1, if_neg h2, if_pos h3, List.append_nil]
        · simp only [if_pos h1, if_neg h2, if_neg h3, List.append_nil]
    · by_cases h2 : apiError.Status = 404
      · by_cases h3 : responseCode = "401".toList ∧ apiError.Code ≠ []
        · simp only [if_neg h1, if_pos h2, if_pos h3, List.nil_append]
        · simp only [if_neg h1, if_pos h2, if_neg h3, List.nil_append, List.append_nil]
      · by_cases h3 : responseCode = "401".toList ∧ apiError.Code ≠ []
        · simp only [if_neg h1, if_neg h2, if_pos h3, List.nil_append, List.append_nil]
        · simp only [if_neg h1, if_neg h2, if_neg h3, List.nil_append, List.append_nil]
  constructor
  · intro printed code hexit
    cases hjp : getJsonPathForCommand E.tables cmd.CommandPath with
    | none =>
      unfold GetApiErrorMessagesForCommand at hexit
      simp only [hjp] at hexit
      exact absurd hexit (by simp)
    | some jp =>
      by_cases hgate : edgeGate apiError responseCode
      · rw [hedge jp hjp hgate] at hexit
        simp only [Outcome.exited.injEq] at hexit
        exact ⟨hexit.1.symm, hexit.2.symm⟩
      · exfalso
        rw [GetApiErrorMessagesForCommand_application E cmd apiError _ _ _ jp hjp hgate]
          at hexit
        split at hexit
        · split at hexit <;> exact absurd hexit (by simp)
        · split at hexit
          · exact absurd hexit (by simp)
          · split at hexit <;> exact absurd hexit (by simp)
  · intro hgate hcmd
    obtain ⟨jp, hjp⟩ := getJsonPathForCommand_isSome E.tables _ hcmd
    exact hedge jp hjp hgate

/-- C18: `GetApiSubErrorMessagesForCommand` acts pointwise on its list of
sub-errors: the result for `xs ++ ys` is the result for `xs` followed by the
result for `ys` (a panic on either side being the panic of the whole); a result
has the length of the input, and its messages are, place by place, the
messages of the single sub-errors. -/
theorem GetApiSubErrorMessagesForCommand_append (E : Env) (cmd : Command)
    (xs ys : List ApiSubError) (parentErrorKey subResource operation : Str) :
    GetApiSubErrorMessagesForCommand E cmd (xs ++ ys) parentErrorKey subResource operation
        = (GetApiSubErrorMessagesForCommand E cmd xs parentErrorKey subResource operation).bind
            (fun a =>
              (GetApiSubErrorMessagesForCommand E cmd ys parentErrorKey subResource operation).map
                (fun b => a ++ b))
      ∧ (∀ errorMessages,
          GetApiSubErrorMessagesForCommand E cmd xs parentErrorKey subResource operation
            = some errorMessages →
          errorMessages.length = xs.length
            ∧ ∀ jsonPathForCommand,
                getJsonPathForCommand E.tables cmd.CommandPath = some jsonPathForCommand →
                errorMessages.map some
                  = xs.map (subErrorMessage E jsonPathForCommand parentErrorKey subResource
                      operation)) := by
  cases hjp : getJsonPathForCommand E.tables cmd.CommandPath with
  | none =>
    have hnone : ∀ zs, GetApiSubErrorMessagesForCommand E cmd zs parentErrorKey subResource
        operation = none := by
      intro zs
      unfold GetApiSubErrorMessagesForCommand
      simp only [hjp]
    constructor
    · rw [hnone, hnone]
      rfl
    · intro errorMessages h
      rw [hnone] at h
      exact absurd h (by simp)
  | some jp =>
    constructor
    · rw [GetApiSubErrorMessagesForCommand_eq E cmd _ _ _ _ jp hjp,
        GetApiSubErrorMessagesForCommand_eq E cmd _ _ _ _ jp hjp,
        GetApiSubErrorMessagesForCommand_eq E cmd _ _ _ _ jp hjp]
      exact collectFrom_append _ xs ys 0
    · intro errorMessages h
      rw [GetApiSubErrorMessagesForCommand_eq E cmd _ _ _ _ jp hjp] at h
      have hmap := collectFrom_some_map _ xs 0 errorMessages h
      constructor
      · have := congrArg List.length hmap
        simpa using this
      · intro jsonPathForCommand hj
        cases hj
        exact hmap

/-! ## The existence probe and the resolver -/

/-- Where the value at a key that exists is a string, the resolver returns it. -/
theorem getMessageForJsonPathOrFallback_string (E : Env) (jsonPath : Str)
    (hexists : checkIfMessageExist E jsonPath = true)
    (hstring : (E.messageJson jsonPath).Typ = GType.String) :
    getMessageForJsonPathOrFallback E jsonPath = (E.messageJson jsonPath).Str := by
  unfold checkIfMessageExist at hexists
  simp [getMessageForJsonPathOrFallback, hexists, hstring, Result.String]

end MessageUtils
